import Mathlib

/-!
Verification development for the `racing_form_etl` ingestion pipeline.

Shallow embedding of:
  * `src/racing_form_etl/api/ingest.py` (flattening, typed values, entity
    extraction, idempotent persistence, the `ingest_api_day` orchestrator);
  * `src/racing_form_etl/api/the_racing_api_client.py` (retry loop,
    cancellable sleeping, the summaries fallback);
  * the table shapes of `src/racing_form_etl/db/migrations.py`.

JSON values are modelled by an inductive `Json` tree; Python dicts are
insertion-ordered association lists (`List (String × Json)`), and the SQLite
tables are insertion-ordered association lists keyed by their primary keys,
with `ON CONFLICT ... DO UPDATE` modelled by an in-place upsert (`dinsert`).
Numbers are modelled by `ℚ` (the source stores Python ints/floats; no claim
depends on float rounding).
-/

/-- A JSON value as decoded by Python's `json` module: `null`, `bool`, a
number (`int`/`float`, modelled as `ℚ`; Python `bool` is carried by the
separate `bool` constructor, matching the `isinstance(..., bool)` exclusions
in the source), `str`, list, and insertion-ordered dict. -/
inductive Json where
  | null : Json
  | bool (b : Bool) : Json
  | num (q : ℚ) : Json
  | str (s : String) : Json
  | arr (xs : List Json) : Json
  | obj (kvs : List (String × Json)) : Json
  deriving Repr

mutual
/-- Structural equality test for `Json` (nested, so written by hand). -/
def Json.beq : Json → Json → Bool
  | .null, .null => true
  | .bool a, .bool b => a == b
  | .num a, .num b => a == b
  | .str a, .str b => a == b
  | .arr xs, .arr ys => Json.beqList xs ys
  | .obj kvs, .obj lvs => Json.beqDict kvs lvs
  | _, _ => false

def Json.beqList : List Json → List Json → Bool
  | [], [] => true
  | x :: xs, y :: ys => Json.beq x y && Json.beqList xs ys
  | _, _ => false

def Json.beqDict : List (String × Json) → List (String × Json) → Bool
  | [], [] => true
  | (k, v) :: xs, (k', v') :: ys => k == k' && Json.beq v v' && Json.beqDict xs ys
  | _, _ => false
end

mutual
theorem Json.eq_of_beq : ∀ {a b : Json}, Json.beq a b = true → a = b
  | .null, .null, _ => rfl
  | .bool _, .bool _, h => by simpa [Json.beq] using h
  | .num _, .num _, h => by simpa [Json.beq] using h
  | .str _, .str _, h => by simpa [Json.beq] using h
  | .arr xs, .arr ys, h => by
      have := @Json.eqList_of_beq xs ys (by simpa [Json.beq] using h)
      simp [this]
  | .obj kvs, .obj lvs, h => by
      have := @Json.eqDict_of_beq kvs lvs (by simpa [Json.beq] using h)
      simp [this]

theorem Json.eqList_of_beq : ∀ {xs ys : List Json}, Json.beqList xs ys = true → xs = ys
  | [], [], _ => rfl
  | x :: xs, y :: ys, h => by
      have h1 : Json.beq x y = true := by
        have := h; simp [Json.beqList] at this; exact this.1
      have h2 : Json.beqList xs ys = true := by
        have := h; simp [Json.beqList] at this; exact this.2
      have e1 := Json.eq_of_beq h1
      have e2 := Json.eqList_of_beq h2
      simp [e1, e2]

theorem Json.eqDict_of_beq : ∀ {xs ys : List (String × Json)}, Json.beqDict xs ys = true → xs = ys
  | [], [], _ => rfl
  | (k, v) :: xs, (k', v') :: ys, h => by
      simp only [Json.beqDict, Bool.and_eq_true, beq_iff_eq] at h
      obtain ⟨⟨h0, h1⟩, h2⟩ := h
      have e1 := Json.eq_of_beq h1
      have e2 := Json.eqDict_of_beq h2
      simp [h0, e1, e2]
end

mutual
theorem Json.beq_refl : ∀ (a : Json), Json.beq a a = true
  | .null => rfl
  | .bool b => by simp [Json.beq]
  | .num q => by simp [Json.beq]
  | .str s => by simp [Json.beq]
  | .arr xs => by simpa [Json.beq] using Json.beqList_refl xs
  | .obj kvs => by simpa [Json.beq] using Json.beqDict_refl kvs

theorem Json.beqList_refl : ∀ (xs : List Json), Json.beqList xs xs = true
  | [] => rfl
  | x :: xs => by simp [Json.beqList, Json.beq_refl x, Json.beqList_refl xs]

theorem Json.beqDict_refl : ∀ (xs : List (String × Json)), Json.beqDict xs xs = true
  | [] => rfl
  | (k, v) :: xs => by simp [Json.beqDict, Json.beq_refl v, Json.beqDict_refl xs]
end

instance : DecidableEq Json := fun a b =>
  decidable_of_iff (Json.beq a b = true) ⟨Json.eq_of_beq, fun h => h ▸ Json.beq_refl a⟩

abbrev JDict := List (String × Json)

namespace PyDict

/-- Python `d[k] = v` on an insertion-ordered dict: if `k` is present its
value is replaced in place, otherwise the pair is appended at the end. -/
def dinsert {α β : Type _} [DecidableEq α] (k : α) (v : β) : List (α × β) → List (α × β)
  | [] => [(k, v)]
  | (k', v') :: rest => if k' = k then (k', v) :: rest else (k', v') :: dinsert k v rest

/-- Python `d.update(e)`: upsert every binding of `e`, in order, into `d`. -/
def dupdate {α β : Type _} [DecidableEq α] (d e : List (α × β)) : List (α × β) :=
  e.foldl (fun acc p => dinsert p.1 p.2 acc) d

/-- The keys of a dict, in order. -/
def dkeys {α β : Type _} (d : List (α × β)) : List α := d.map Prod.fst

/-- Lookup (first binding wins; with `Nodup` keys there is at most one). -/
def dlookup {α β : Type _} [DecidableEq α] (k : α) : List (α × β) → Option β
  | [] => none
  | (k', v') :: rest => if k' = k then some v' else dlookup k rest

end PyDict

open PyDict

/-- Python truthiness of a JSON value (`bool(v)`): `None`, `False`, `0`,
`""`, `[]`, `{}` are falsy, everything else truthy. -/
def Json.truthy : Json → Bool
  | .null => false
  | .bool b => b
  | .num q => decide (q ≠ 0)
  | .str s => decide (s ≠ "")
  | .arr xs => !xs.isEmpty
  | .obj kvs => !kvs.isEmpty

/-- Python `a or b` on JSON values. -/
def pyOr (a b : Json) : Json := if a.truthy then a else b

/-- Python `d.get(k)` with `None` (here `Json.null`) as default. -/
def jget (d : JDict) (k : String) : Json := (dlookup k d).getD Json.null

/-- ASCII `str.lower()` (the identifiers and error messages the claims
exercise are ASCII). -/
def asciiLowerChar (c : Char) : Char :=
  if 'A' ≤ c ∧ c ≤ 'Z' then Char.ofNat (c.toNat + 32) else c

def asciiLower (s : String) : String := String.mk (s.data.map asciiLowerChar)

/-- Python whitespace for `str.strip()`. -/
def isPyWhitespace (c : Char) : Bool :=
  c = ' ' ∨ c = '\t' ∨ c = '\n' ∨ c = '\r' ∨ c = Char.ofNat 11 ∨ c = Char.ofNat 12

/-- Python `s.strip()` (default whitespace). -/
def pyStrip (s : String) : String :=
  String.mk (((s.data.dropWhile isPyWhitespace).reverse.dropWhile isPyWhitespace).reverse)

/-- Rendering of a rational the way Python renders the numbers the pipeline
sees: integers without a decimal point, other rationals as `num/den` (the
source renders floats with `repr`; no claim inspects a non-integer
rendering). -/
def renderNum (q : ℚ) : String :=
  if q.den = 1 then toString q.num else toString q.num ++ "/" ++ toString q.den

mutual
/-- Python `str(v)` for a decoded JSON value (scalars faithfully; containers
via a `repr`-like rendering — no claim inspects `str` of a container). -/
def pyStr : Json → String
  | .null => "None"
  | .bool b => if b then "True" else "False"
  | .num q => renderNum q
  | .str s => s
  | .arr xs => "[" ++ pyStrList xs ++ "]"
  | .obj kvs => "\x7b" ++ pyStrDict kvs ++ "\x7d"

def pyStrList : List Json → String
  | [] => ""
  | [x] => pyStr x
  | x :: xs => pyStr x ++ ", " ++ pyStrList xs

def pyStrDict : List (String × Json) → String
  | [] => ""
  | [(k, v)] => "'" ++ k ++ "': " ++ pyStr v
  | (k, v) :: kvs => "'" ++ k ++ "': " ++ pyStr v ++ ", " ++ pyStrDict kvs
end

/-- JSON string escaping as done by `json.dumps` (`ensure_ascii=False`);
the common escapes suffice for the data the claims exercise. -/
def jsonEscapeChar (c : Char) : String :=
  if c = '"' then "\\\"" else
  if c = '\\' then "\\\\" else
  if c = '\n' then "\\n" else
  if c = '\t' then "\\t" else
  if c = '\r' then "\\r" else
  String.mk [c]

def jsonEscape (s : String) : String := String.join (s.data.map jsonEscapeChar)

mutual
/-- Embeds `_compact_json(obj)`: `json.dumps(obj, separators=(",", ":"))`. -/
def compactJson : Json → String
  | .null => "null"
  | .bool b => if b then "true" else "false"
  | .num q => renderNum q
  | .str s => "\"" ++ jsonEscape s ++ "\""
  | .arr xs => "[" ++ compactJsonList xs ++ "]"
  | .obj kvs => "\x7b" ++ compactJsonDict kvs ++ "\x7d"

def compactJsonList : List Json → String
  | [] => ""
  | [x] => compactJson x
  | x :: xs => compactJson x ++ "," ++ compactJsonList xs

def compactJsonDict : List (String × Json) → String
  | [] => ""
  | [(k, v)] => "\"" ++ jsonEscape k ++ "\":" ++ compactJson v
  | (k, v) :: kvs => "\"" ++ jsonEscape k ++ "\":" ++ compactJson v ++ "," ++ compactJsonDict kvs
end

example : compactJson (Json.obj [("a", Json.arr [Json.num 1, Json.null])]) = "\x7b\"a\":[1,null]\x7d" := by rfl
example : pyOr (Json.num 0) (Json.str "x") = Json.str "x" := by rfl
example : pyStrip (String.mk [' ', 'a', ' ']) = "a" := by rfl

/-! ## `flatten_json` (ingest.py lines 37–51) -/

mutual
/-- Embeds `flatten_json(obj, prefix)`: dict keys join the path with `.` (bare key at
the root), list indices append `[i]`, an empty list at a non-root path is
recorded as itself (`out[prefix] = []`), scalars land at their path.  The
`out` dict is built by successive `out.update(...)` calls, modelled by
`dupdate`. -/
def flatten_json : Json → String → List (String × Json)
  | .obj kvs, pfx => flattenObj kvs pfx []
  | .arr xs, pfx =>
      let out := flattenArr xs pfx 0 []
      if pfx ≠ "" ∧ xs = [] then dinsert pfx (Json.arr []) out else out
  | v, pfx => [(pfx, v)]

/-- The `for k, v in obj.items(): out.update(flatten_json(v, key))` loop. -/
def flattenObj : List (String × Json) → String → List (String × Json) → List (String × Json)
  | [], _, out => out
  | (k, v) :: rest, pfx, out =>
      flattenObj rest pfx (dupdate out (flatten_json v (if pfx = "" then k else pfx ++ "." ++ k)))

/-- The `for i, v in enumerate(obj): out.update(flatten_json(v, key))` loop. -/
def flattenArr : List Json → String → Nat → List (String × Json) → List (String × Json)
  | [], _, _, out => out
  | v :: rest, pfx, i, out =>
      flattenArr rest pfx (i + 1) (dupdate out (flatten_json v (pfx ++ "[" ++ toString i ++ "]")))
end

example : flatten_json (Json.obj [("a", Json.obj [("b", Json.num 1)]), ("c", Json.arr [])]) "" =
    [("a.b", Json.num 1), ("c", Json.arr [])] := by rfl
example : flatten_json (Json.arr [Json.str "x", Json.arr []]) "" =
    [("[0]", Json.str "x"), ("[1]", Json.arr [])] := by rfl

/-- Embeds `_typed_values(value)` (ingest.py lines 54–59): numbers (Python
`int`/`float`, excluding `bool` — a separate constructor here) go to the
numeric slot, strings to the text slot, everything else is JSON-serialized. -/
def _typed_values (value : Json) : Option String × Option ℚ × Option String :=
  match value with
  | .num q => (none, some q, none)
  | .str s => (some s, none, none)
  | v => (none, none, some (compactJson v))

/-! ## The API client (the_racing_api_client.py) -/

/-- What the environment does at one iteration of the `_request` attempt
loop: either `requests.request` returns a response with a status code, or it
raises (carrying an optional `.code` attribute and possibly being a
transport error, i.e. `URLError`/`TimeoutError`), or the cancellation event
is observed set at the top of the iteration (covering the explicit
`is_set()` check and the cancellable pacing/backoff sleeps, all of which
raise before the next HTTP send). -/
inductive Outcome where
  | response (code : Nat) (body : Json)
  | raised (code : Option Nat) (transport : Bool)
  | cancelledHere
  deriving DecidableEq, Repr

/-- The errors `_request` can raise. -/
inductive ReqError where
  | cancelled
  | status (code : Nat)
  | raised (code : Option Nat) (transport : Bool)
  deriving DecidableEq, Repr

/-- The retryable status codes `{429, 500, 502, 503, 504}`. -/
def retrySet : List Nat := [429, 500, 502, 503, 504]

/-- Computes `retryable` for a caught exception: `getattr(exc, "code", None)` in the
retry set, or a transport error. -/
def excRetryable (code : Option Nat) (transport : Bool) : Bool :=
  (match code with
   | some c => decide (c ∈ retrySet)
   | none => false) || transport

/-- The `for attempt in range(self.max_retries + 1)` loop of `_request`
(lines 59–109, `requests` branch), returning the outcome together with the
number of HTTP attempts performed.  A 2xx returns the body; a retryable
status with attempts left retries; otherwise `raise_for_status()` raises an
`HTTPError` (which carries no `.code`, hence is not retryable and
propagates); a raised exception retries only if retryable and attempts
remain. -/
def requestGo (outcomes : Nat → Outcome) (maxRetries attempt sent : Nat) :
    Except ReqError Json × Nat :=
  match outcomes attempt with
  | .cancelledHere => (.error .cancelled, sent)
  | .response code body =>
      if 200 ≤ code ∧ code < 300 then (.ok body, sent + 1)
      else if h : code ∈ retrySet ∧ attempt < maxRetries then
        requestGo outcomes maxRetries (attempt + 1) (sent + 1)
      else (.error (.status code), sent + 1)
  | .raised code transport =>
      if h : maxRetries ≤ attempt ∨ excRetryable code transport = false then
        (.error (.raised code transport), sent + 1)
      else requestGo outcomes maxRetries (attempt + 1) (sent + 1)
  termination_by maxRetries - attempt
  decreasing_by
  · omega
  · omega

/-- Embeds `_request` (the whole retry loop): result and number of HTTP attempts. -/
def clientRequest (outcomes : Nat → Outcome) (maxRetries : Nat) : Except ReqError Json × Nat :=
  requestGo outcomes maxRetries 0 0

/-- Embeds `fetch_daily_racecard_summaries` (lines 115–120): try the summaries
request; on ANY exception fall back to a full `fetch_daily_racecards`.  The
two arguments are the outcome streams of the two underlying `_request`
calls. -/
def fetch_daily_racecard_summaries (sumOutcomes fullOutcomes : Nat → Outcome)
    (maxRetries : Nat) : Except ReqError Json :=
  match (clientRequest sumOutcomes maxRetries).1 with
  | .ok v => .ok v
  | .error _ => (clientRequest fullOutcomes maxRetries).1

/-- Embeds `_sleep_with_cancel(seconds, cancel_event)` (lines 37–44): sleep in
increments of `min(0.2, remaining)`, re-checking the cancellation signal
before each increment.  `cancel i` is whether the event is observed set at
the `i`-th check.  Returns the list of sleep increments performed and
whether the `RuntimeError("Request cancelled")` was raised. -/
def sleepGo (cancel : Nat → Bool) (seconds elapsed : ℚ) (i : Nat) : List ℚ × Bool :=
  if h : elapsed < seconds then
    if cancel i then ([], true)
    else
      let step := min (1 / 5 : ℚ) (seconds - elapsed)
      let rest := sleepGo cancel seconds (elapsed + step) (i + 1)
      (step :: rest.1, rest.2)
  else ([], false)
  termination_by (⌈(seconds - elapsed) * 5⌉).toNat
  decreasing_by
    have hrem : (0 : ℚ) < seconds - elapsed := by linarith
    rcases le_or_lt (seconds - elapsed) (1 / 5) with hle | hlt
    · have hstep : min (1 / 5 : ℚ) (seconds - elapsed) = seconds - elapsed := min_eq_right hle
      have hz : seconds - (elapsed + min (1 / 5 : ℚ) (seconds - elapsed)) = 0 := by
        rw [hstep]; ring
      have h1 : (1 : ℤ) ≤ ⌈(seconds - elapsed) * 5⌉ := by
        have : (0 : ℚ) < (seconds - elapsed) * 5 := by positivity
        exact Int.ceil_pos.mpr this
      rw [hz]
      simp only [zero_mul, Int.ceil_zero, Int.toNat_zero]
      omega
    · have hstep : min (1 / 5 : ℚ) (seconds - elapsed) = 1 / 5 := min_eq_left (le_of_lt hlt)
      have harith : (seconds - (elapsed + min (1 / 5 : ℚ) (seconds - elapsed))) * 5
          = (seconds - elapsed) * 5 - 1 := by rw [hstep]; ring
      rw [harith, Int.ceil_sub_one]
      have h2 : (2 : ℤ) ≤ ⌈(seconds - elapsed) * 5⌉ := by
        have : (1 : ℚ) < (seconds - elapsed) * 5 := by nlinarith
        have := Int.lt_ceil.mpr (by exact_mod_cast this : ((1 : ℤ) : ℚ) < (seconds - elapsed) * 5)
        omega
      omega

/-- The whole `_sleep_with_cancel` call (`elapsed` starts at `0.0`). -/
def sleep_with_cancel (seconds : ℚ) (cancel : Nat → Bool) : List ℚ × Bool :=
  sleepGo cancel seconds 0 0

/-! ## The SQLite store (db/migrations.py) -/

/-- A row of `api_meetings` (non-key columns; all bound as `str(...)`). -/
structure MeetingRow where
  meeting_date : String
  country : String
  venue : String
  raw_json : String
  deriving DecidableEq, Repr

/-- A row of `api_races` (non-key columns; the values bound come straight
from the payload, so they are modelled as `Json`, with `Json.null` for SQL
NULL). `race_class` is the `class` column (a Lean keyword). -/
structure RaceRow where
  meeting_id : String
  race_no : Json
  scheduled_start_time : Json
  distance : Json
  race_class : Json
  raw_json : String
  deriving DecidableEq, Repr

/-- A row of `api_runners` (non-key columns). -/
structure RunnerRow where
  race_id : String
  runner_name : Json
  barrier : Json
  weight : Json
  jockey : Json
  trainer : Json
  raw_json : String
  deriving DecidableEq, Repr

/-- A row of `api_results` (non-key columns; `race_id` is the key). -/
structure ResultRow where
  status : Json
  winner_runner_id : Option String
  finish_order_json : String
  raw_json : String
  deriving DecidableEq, Repr

/-- A row of `api_entities` (non-key columns). -/
structure EntityRow where
  parent_id : Option String
  meeting_date : Option String
  country : Option String
  raw_json : String
  deriving DecidableEq, Repr

/-- A row of `api_kv` (non-key columns: the three mutually exclusive typed
slots). -/
structure KvRow where
  v_text : Option String
  v_num : Option ℚ
  v_json : Option String
  deriving DecidableEq, Repr

/-- The six tables, each an insertion-ordered association list keyed by its
primary key. -/
structure Store where
  api_meetings : List (String × MeetingRow)
  api_races : List (String × RaceRow)
  api_runners : List (String × RunnerRow)
  api_results : List (String × ResultRow)
  api_entities : List ((String × String) × EntityRow)
  api_kv : List ((String × String × String) × KvRow)
  deriving DecidableEq, Repr

/-- One `INSERT ... ON CONFLICT ... DO UPDATE` statement executed by
`ingest_api_day` (every statement overwrites all non-key columns, so each is
an upsert of a full row at a primary key). -/
inductive Op where
  | meeting (id : String) (row : MeetingRow)
  | race (id : String) (row : RaceRow)
  | runner (id : String) (row : RunnerRow)
  | result (id : String) (row : ResultRow)
  | entity (key : String × String) (row : EntityRow)
  | kv (key : String × String × String) (row : KvRow)
  deriving DecidableEq, Repr

/-- Executing one upsert against the store. -/
def Op.apply (s : Store) : Op → Store
  | .meeting id row => { s with api_meetings := dinsert id row s.api_meetings }
  | .race id row => { s with api_races := dinsert id row s.api_races }
  | .runner id row => { s with api_runners := dinsert id row s.api_runners }
  | .result id row => { s with api_results := dinsert id row s.api_results }
  | .entity key row => { s with api_entities := dinsert key row s.api_entities }
  | .kv key row => { s with api_kv := dinsert key row s.api_kv }

/-- Executing a sequence of upserts in order. -/
def applyOps (ops : List Op) (s : Store) : Store := ops.foldl Op.apply s

/-! ## Entity extraction (ingest.py) -/

/-- Embeds `_get_id(d, fallback_keys)` (lines 18–23): first key in
`["id","uuid","runner_id","race_id","meeting_id"] + fallback_keys` whose
value is not `None` and whose `str(...).strip()` is nonempty; returns the
(unstripped) `str(...)`. -/
def getIdGo (d : JDict) : List String → Option String
  | [] => none
  | k :: rest =>
      let v := jget d k
      if v ≠ Json.null ∧ pyStrip (pyStr v) ≠ "" then some (pyStr v) else getIdGo d rest

def _get_id (d : JDict) (fallback_keys : List String) : Option String :=
  getIdGo d (["id", "uuid", "runner_id", "race_id", "meeting_id"] ++ fallback_keys)

/-- Keep only the dict elements of a list (`[x for x in payload if isinstance(x, dict)]`). -/
def asDicts (xs : List Json) : List JDict :=
  xs.filterMap fun x => match x with | .obj kvs => some kvs | _ => none

/-- The key scan of `_extract_list` over `["data","meetings","races","results","racecards"]`. -/
def extractGo (payload : JDict) : List String → List JDict
  | [] => []
  | k :: rest =>
      match jget payload k with
      | .arr xs => asDicts xs
      | _ => extractGo payload rest

/-- Embeds `_extract_list(payload)` (lines 26–34). -/
def _extract_list : Json → List JDict
  | .arr xs => asDicts xs
  | .obj kvs => extractGo kvs ["data", "meetings", "races", "results", "racecards"]
  | _ => []

/-- The key-name heuristics of `_infer_entity_type`: for `k` in
`("horse","trainer","jockey")`, match if some key starts with `k_` or `k`
itself is a key. -/
def inferGo (o : JDict) : List String → Option String
  | [] => none
  | k :: rest =>
      if (dkeys o).any (fun x => x.startsWith (k ++ "_")) || decide (k ∈ dkeys o) then some k
      else inferGo o rest

/-- Embeds `_infer_entity_type(obj)` (lines 100–107). -/
def _infer_entity_type (o : JDict) : Option String :=
  let name := asciiLower (pyStr (pyOr (jget o "type") (pyOr (jget o "entity_type") (Json.str ""))))
  if name ∈ ["horse", "trainer", "jockey", "runner", "race", "meeting"] then some name
  else inferGo o ["horse", "trainer", "jockey"]

/-- Embeds `_upsert_entity(conn, ...)` (lines 62–97): the entity upsert followed by
one kv upsert per flattened key, returning `len(flat)`. -/
def _upsert_entity (entity_type entity_id : String) (raw : JDict)
    (parent_id meeting_date country : Option String) : List Op × Nat :=
  let entityOp := Op.entity (entity_type, entity_id)
    ⟨parent_id, meeting_date, country, compactJson (Json.obj raw)⟩
  let flat := flatten_json (Json.obj raw) ""
  let kvOps := flat.map fun p =>
    let tv := _typed_values p.2
    Op.kv (entity_type, entity_id, p.1) ⟨tv.1, tv.2.1, tv.2.2⟩
  (entityOp :: kvOps, flat.length)

/-! ## The orchestrator `ingest_api_day` (ingest.py lines 110–294) -/

/-- The report counters. -/
structure Counts where
  meetings : Nat
  races : Nat
  runners : Nat
  results : Nat
  entities : Nat
  kv_pairs : Nat
  deriving DecidableEq, Repr

/-- The run report (`report` dict). -/
structure Report where
  date : String
  regions : List String
  counts : Counts
  errors : List String
  deriving DecidableEq, Repr

/-- The cancellation event, observed through successive `is_set()` checks:
`cancelFrom = some n` means the signal is seen set from the `n`-th check on
(an `Event`, once set, stays set); `none` means it is never seen set. -/
def cancelSet (cancelFrom : Option Nat) (checks : Nat) : Bool :=
  match cancelFrom with
  | none => false
  | some n => decide (n ≤ checks)

/-- Embeds `(x or {}).get("name")` for the jockey/trainer columns; a non-dict
truthy value would raise `AttributeError` in the source, which no payload in
the claims produces. -/
def pyGetName : Json → Json
  | .obj kvs => jget kvs "name"
  | _ => Json.null

/-- The nested-entity loop inside the runner loop (lines 253–258). -/
def persistNested (meeting_date country runner_id : String) (items : JDict)
    (st : Counts × List Op) : Counts × List Op :=
  items.foldl
    (fun st kv =>
      match kv.2 with
      | .obj sub =>
          let inferred := (_infer_entity_type sub).getD (asciiLower kv.1)
          let nested_id := (_get_id sub [inferred ++ "_id", "id"]).getD (runner_id ++ "_" ++ kv.1)
          let p := _upsert_entity inferred nested_id sub (some runner_id) (some meeting_date) (some country)
          ({ st.1 with entities := st.1.entities + 1, kv_pairs := st.1.kv_pairs + p.2 },
           st.2 ++ p.1)
      | _ => st)
    st

/-- One iteration of the runner loop (lines 221–258). -/
def persistRunner (meeting_date country race_id : String) (st : Counts × List Op)
    (runner : Json) : Counts × List Op :=
  match runner with
  | .obj r =>
      let runner_id := (_get_id r ["runner_id", "horse_id"]).getD
        (race_id ++ "_ru" ++ toString (st.1.runners + 1))
      let jockey := match jget r "jockey" with
        | .str s => Json.str s
        | j => pyGetName (pyOr j (Json.obj []))
      let trainer := match jget r "trainer" with
        | .str s => Json.str s
        | t => pyGetName (pyOr t (Json.obj []))
      let row : RunnerRow :=
        ⟨race_id,
         pyOr (jget r "runner_name") (jget r "name"),
         pyOr (jget r "barrier") (jget r "draw"),
         jget r "weight",
         jockey, trainer,
         compactJson (Json.obj r)⟩
      let p := _upsert_entity "runner" runner_id r (some race_id) (some meeting_date) (some country)
      let st1 : Counts × List Op :=
        ({ st.1 with runners := st.1.runners + 1, entities := st.1.entities + 1,
                     kv_pairs := st.1.kv_pairs + p.2 },
         st.2 ++ [Op.runner runner_id row] ++ p.1)
      persistNested meeting_date country runner_id r st1
  | _ => st

/-- One iteration of the race loop (lines 190–258). -/
def persistRace (meeting_date country meeting_id : String) (st : Counts × List Op)
    (race : Json) : Counts × List Op :=
  match race with
  | .obj rc =>
      let race_id := (_get_id rc ["race_id"]).getD
        (meeting_id ++ "_r" ++ toString (st.1.races + 1))
      let row : RaceRow :=
        ⟨meeting_id,
         pyOr (jget rc "race_no") (jget rc "number"),
         pyOr (jget rc "scheduled_start_time") (pyOr (jget rc "off_time") (jget rc "start_time")),
         jget rc "distance",
         pyOr (jget rc "class") (jget rc "grade"),
         compactJson (Json.obj rc)⟩
      let p := _upsert_entity "race" race_id rc (some meeting_id) (some meeting_date) (some country)
      let st1 : Counts × List Op :=
        ({ st.1 with races := st.1.races + 1, entities := st.1.entities + 1,
                     kv_pairs := st.1.kv_pairs + p.2 },
         st.2 ++ [Op.race race_id row] ++ p.1)
      let runners := match jget rc "runners" with | .arr xs => xs | _ => []
      runners.foldl (persistRunner meeting_date country race_id) st1
  | _ => st

/-- The body of one meeting iteration (lines 169–258, after the
cancellation check). -/
def persistMeeting (date : String) (regions : List String) (st : Counts × List Op)
    (m : JDict) : Counts × List Op :=
  let meeting_id := (_get_id m ["meeting_id", "track_id", "venue_id"]).getD
    ("m_" ++ date ++ "_" ++ toString st.1.meetings)
  let meeting_date := pyStr (pyOr (jget m "meeting_date") (pyOr (jget m "date") (Json.str date)))
  let country := pyStr (pyOr (jget m "country") (Json.str (regions.headD "")))
  let venue := pyStr (pyOr (jget m "venue") (pyOr (jget m "track") (Json.str "")))
  let row : MeetingRow := ⟨meeting_date, country, venue, compactJson (Json.obj m)⟩
  let p := _upsert_entity "meeting" meeting_id m none (some meeting_date) (some country)
  let st1 : Counts × List Op :=
    ({ st.1 with meetings := st.1.meetings + 1, entities := st.1.entities + 1,
                 kv_pairs := st.1.kv_pairs + p.2 },
     st.2 ++ [Op.meeting meeting_id row] ++ p.1)
  let races := match jget m "races" with | .arr xs => xs | _ => []
  races.foldl (persistRace meeting_date country meeting_id) st1

/-- The meeting loop (lines 166–258): a cancellation check at the top of
every iteration (`checks` is the index of the next check), `break` when it
fires. -/
def persistMeetings (date : String) (regions : List String) (cancelFrom : Option Nat) :
    List JDict → Counts × List Op × Nat → Counts × List Op × Nat
  | [], st => st
  | m :: rest, (counts, ops, checks) =>
      if cancelSet cancelFrom checks then (counts, ops, checks + 1)
      else
        let st' := persistMeeting date regions (counts, ops) m
        persistMeetings date regions cancelFrom rest (st'.1, st'.2, checks + 1)

/-- The results loop (lines 260–285); it performs no cancellation checks. -/
def persistResults (date : String) (rows : List JDict) (st : Counts × List Op) :
    Counts × List Op :=
  rows.foldl
    (fun st row =>
      match _get_id row ["race_id"] with
      | none => st
      | some race_id =>
          let finish_order := pyOr (jget row "finish_order")
            (pyOr (jget row "placing") (pyOr (jget row "positions") (Json.arr [])))
          let winner0 := jget row "winner_runner_id"
          let winner :=
            if winner0 = Json.null then
              match finish_order with
              | .arr (top :: _) => (match top with | .obj t => jget t "runner_id" | _ => top)
              | _ => winner0
            else winner0
          let rrow : ResultRow :=
            ⟨jget row "status",
             if winner = Json.null then none else some (pyStr winner),
             compactJson finish_order,
             compactJson (Json.obj row)⟩
          let p := _upsert_entity "result" race_id row (some race_id) (some date) none
          ({ st.1 with results := st.1.results + 1, entities := st.1.entities + 1,
                       kv_pairs := st.1.kv_pairs + p.2 },
           st.2 ++ [Op.result race_id rrow] ++ p.1))
    st

/-- Python `needle in hay` prefix test on char lists. -/
def leadsWith : List Char → List Char → Bool
  | [], _ => true
  | _ :: _, [] => false
  | a :: as, b :: bs => a == b && leadsWith as bs

/-- Python substring containment `needle in hay` on char lists. -/
def occursInChars (needle : List Char) : List Char → Bool
  | [] => leadsWith needle []
  | c :: rest => leadsWith needle (c :: rest) || occursInChars needle rest

/-- Python `needle in hay` on strings. -/
def occursIn (hay needle : String) : Bool := occursInChars needle.data hay.data

/-- The persist + report phase of `ingest_api_day` (lines 162–294), after
the fetches succeeded (or the results fetch was downgraded): extract the
lists, run the meeting loop (cancellation checks start at index 1 — index 0
is the post-fetch check), then the results loop, then apply all upserts and
assemble the report. -/
def ingestPersistPhase (date : String) (regions : List String) (racecards results : Json)
    (errors : List String) (cancelFrom : Option Nat) (s : Store) : Report × Store :=
  let meetings := _extract_list racecards
  let results_rows := _extract_list results
  let stM := persistMeetings date regions cancelFrom meetings (⟨0, 0, 0, 0, 0, 0⟩, [], 1)
  let stR := persistResults date results_rows (stM.1, stM.2.1)
  (⟨date, regions, stR.1, errors⟩, applyOps stR.2 s)

/-- Embeds `ingest_api_day(db_path, date, regions, ...)` with the fetch outcomes as
inputs: `racecards` is the payload the (possibly summary, possibly
fallen-back) racecards fetch returned, `resultsOutcome` is the outcome of
`fetch_daily_results` (`.error msg` = it raised with message `msg`).  After
the racecards fetch the cancellation signal is checked (check index 0): if
set, the zero report is returned with the store untouched.  A results-fetch
error whose lowered message contains both `"standard"` and `"plan"` is
downgraded: the error list gets the explanatory message and the results
payload stays `{"results": []}`; any other error propagates
(`Except.error`). -/
def ingest_api_day (date : String) (regions : List String) (racecards : Json)
    (resultsOutcome : Except String Json) (cancelFrom : Option Nat) (s : Store) :
    Except String (Report × Store) :=
  if cancelSet cancelFrom 0 then
    .ok (⟨date, regions, ⟨0, 0, 0, 0, 0, 0⟩, []⟩, s)
  else
    match resultsOutcome with
    | .ok results => .ok (ingestPersistPhase date regions racecards results [] cancelFrom s)
    | .error msg =>
        if occursIn (asciiLower msg) "standard" && occursIn (asciiLower msg) "plan" then
          .ok (ingestPersistPhase date regions racecards (Json.obj [("results", Json.arr [])])
            ["Results endpoint unavailable on current plan; ingesting racecards only."]
            cancelFrom s)
        else .error msg

/-! ## Dictionary lemmas -/

namespace PyDict

variable {α β : Type _} [DecidableEq α]

theorem dkeys_dinsert (k : α) (v : β) (t : List (α × β)) :
    dkeys (dinsert k v t) = if k ∈ dkeys t then dkeys t else dkeys t ++ [k] := by
  induction t with
  | nil => simp [dinsert, dkeys]
  | cons p rest ih =>
      obtain ⟨k', v'⟩ := p
      by_cases h : k' = k
      · subst h
        simp [dinsert, dkeys]
      · simp only [dinsert, if_neg h, dkeys, List.map_cons] at ih ⊢
        rw [ih]
        have : k ∈ k' :: List.map Prod.fst rest ↔ k ∈ List.map Prod.fst rest := by
          constructor
          · intro hm
            rcases List.mem_cons.mp hm with h1 | h1
            · exact absurd h1.symm h
            · exact h1
          · intro hm; exact List.mem_cons_of_mem _ hm
        by_cases hmem : k ∈ List.map Prod.fst rest
        · simp [hmem, this]
        · simp [hmem, this]

theorem mem_dkeys_dinsert {a k : α} {v : β} {t : List (α × β)} :
    a ∈ dkeys (dinsert k v t) ↔ a = k ∨ a ∈ dkeys t := by
  rw [dkeys_dinsert]
  by_cases h : k ∈ dkeys t
  · simp only [if_pos h]
    constructor
    · intro ha; exact Or.inr ha
    · rintro (rfl | ha)
      · exact h
      · exact ha
  · simp only [if_neg h, List.mem_append, List.mem_singleton]
    tauto

omit [DecidableEq α] in
theorem dkeys_cons (k : α) (v : β) (t : List (α × β)) :
    dkeys ((k, v) :: t) = k :: dkeys t := rfl

theorem dlookup_dinsert (k k' : α) (v : β) :
    ∀ t : List (α × β), dlookup k' (dinsert k v t) = if k' = k then some v else dlookup k' t
  | [] => by simp [dinsert, dlookup, eq_comm]
  | (k0, v0) :: rest => by
      by_cases h : k0 = k
      · subst h
        simp only [dinsert, if_pos rfl, dlookup]
        by_cases h' : k0 = k'
        · subst h'; simp
        · have h'' : ¬k' = k0 := fun hh => h' hh.symm
          simp [h', h'']
      · simp only [dinsert, if_neg h, dlookup]
        by_cases h' : k0 = k'
        · subst h'
          have h'' : ¬k0 = k := h
          simp [if_neg h'']
        · simp only [if_neg h']
          exact dlookup_dinsert k k' v rest

theorem dlookup_eq_none {k : α} : ∀ {t : List (α × β)}, dlookup k t = none ↔ k ∉ dkeys t
  | [] => by simp [dlookup, dkeys]
  | (k0, v0) :: rest => by
      rw [dkeys_cons]
      by_cases h : k0 = k
      · subst h; simp [dlookup]
      · have h' : ¬k = k0 := fun hh => h hh.symm
        simp only [dlookup, if_neg h, List.mem_cons, dlookup_eq_none (t := rest)]
        tauto

theorem nodup_dkeys_dinsert {k : α} {v : β} {t : List (α × β)}
    (h : (dkeys t).Nodup) : (dkeys (dinsert k v t)).Nodup := by
  rw [dkeys_dinsert]
  by_cases hm : k ∈ dkeys t
  · simpa [hm] using h
  · simp only [if_neg hm]
    refine List.Nodup.append h (List.nodup_singleton k) ?_
    intro a ha hb
    exact hm ((List.mem_singleton.mp hb) ▸ ha)

/-- Two dicts with the same `Nodup` key sequence and the same lookups are
equal. -/
theorem dict_ext {t₁ t₂ : List (α × β)} (h₁ : (dkeys t₁).Nodup) (h₂ : (dkeys t₂).Nodup)
    (hk : dkeys t₁ = dkeys t₂) (hl : ∀ k, dlookup k t₁ = dlookup k t₂) : t₁ = t₂ := by
  induction t₁ generalizing t₂ with
  | nil =>
      cases t₂ with
      | nil => rfl
      | cons p rest => simp [dkeys] at hk
  | cons p rest ih =>
      obtain ⟨k, v⟩ := p
      cases t₂ with
      | nil => simp [dkeys] at hk
      | cons q rest₂ =>
          obtain ⟨k₂, v₂⟩ := q
          simp only [dkeys, List.map_cons, List.cons.injEq] at hk
          obtain ⟨hkk, hrest⟩ := hk
          subst hkk
          have hv : v = v₂ := by
            have := hl k
            simpa [dlookup] using this
          subst hv
          have h₁' : (dkeys rest).Nodup := (List.nodup_cons.mp h₁).2
          have h₂' : (dkeys rest₂).Nodup := (List.nodup_cons.mp h₂).2
          have hknot₁ : k ∉ dkeys rest := (List.nodup_cons.mp h₁).1
          have hknot₂ : k ∉ dkeys rest₂ := (List.nodup_cons.mp h₂).1
          have hl' : ∀ k', dlookup k' rest = dlookup k' rest₂ := by
            intro k'
            by_cases hk' : k = k'
            · subst hk'
              rw [(dlookup_eq_none).mpr hknot₁, (dlookup_eq_none).mpr hknot₂]
            · have := hl k'
              simpa [dlookup, hk'] using this
          rw [ih h₁' h₂' hrest hl']

/-- Evaluates `dlookup` through `dupdate`: fold the bindings of `e` (last wins) over
the original lookup. -/
theorem dlookup_dupdate (k : α) (t e : List (α × β)) :
    dlookup k (dupdate t e) =
      e.foldl (fun acc p => if p.1 = k then some p.2 else acc) (dlookup k t) := by
  induction e generalizing t with
  | nil => simp [dupdate]
  | cons p e ih =>
      obtain ⟨k0, v0⟩ := p
      show dlookup k (dupdate (dinsert k0 v0 t) e) = _
      rw [ih]
      simp only [List.foldl_cons]
      rw [dlookup_dinsert]
      by_cases h : k = k0
      · subst h; simp
      · have h' : ¬k0 = k := fun hh => h hh.symm
        rw [if_neg h, if_neg h']

theorem foldl_lastwins (e : List (α × β)) (k : α) (x : Option β) :
    e.foldl (fun acc p => if p.1 = k then some p.2 else acc) x =
      match e.foldl (fun acc p => if p.1 = k then some p.2 else acc) (none : Option β) with
      | some v => some v
      | none => x := by
  induction e generalizing x with
  | nil => simp
  | cons p e ih =>
      obtain ⟨k0, v0⟩ := p
      simp only [List.foldl_cons]
      by_cases h : k0 = k
      · simp only [if_pos h]
        rw [ih (some v0)]
        cases hf : e.foldl (fun acc p => if p.1 = k then some p.2 else acc) (none : Option β) with
        | some v => simp [hf]
        | none => simp [hf]
      · simp only [if_neg h]
        exact ih x

theorem dkeys_dupdate (t e : List (α × β)) :
    dkeys (dupdate t e) =
      e.foldl (fun ks p => if p.1 ∈ ks then ks else ks ++ [p.1]) (dkeys t) := by
  induction e generalizing t with
  | nil => simp [dupdate]
  | cons p e ih =>
      obtain ⟨k0, v0⟩ := p
      show dkeys (dupdate (dinsert k0 v0 t) e) = _
      rw [ih]
      simp only [List.foldl_cons]
      rw [dkeys_dinsert]

theorem mem_foldl_keys (e : List (α × β)) (ks : List α) (a : α) :
    a ∈ e.foldl (fun ks p => if p.1 ∈ ks then ks else ks ++ [p.1]) ks ↔
      a ∈ ks ∨ a ∈ e.map Prod.fst := by
  induction e generalizing ks with
  | nil => simp
  | cons p e ih =>
      obtain ⟨k0, v0⟩ := p
      simp only [List.foldl_cons, List.map_cons, List.mem_cons]
      rw [ih]
      by_cases h : k0 ∈ ks
      · simp only [if_pos h]
        constructor
        · rintro (ha | ha)
          · exact Or.inl ha
          · exact Or.inr (Or.inr ha)
        · rintro (ha | ha | ha)
          · exact Or.inl ha
          · exact Or.inl (ha ▸ h)
          · exact Or.inr ha
      · simp only [if_neg h, List.mem_append, List.mem_singleton]
        tauto

theorem foldl_keys_of_subset (e : List (α × β)) (ks : List α)
    (h : ∀ a ∈ e.map Prod.fst, a ∈ ks) :
    e.foldl (fun ks p => if p.1 ∈ ks then ks else ks ++ [p.1]) ks = ks := by
  induction e generalizing ks with
  | nil => simp
  | cons p e ih =>
      obtain ⟨k0, v0⟩ := p
      have hk0 : k0 ∈ ks := h k0 (by simp)
      simp only [List.foldl_cons, if_pos hk0]
      exact ih ks (fun a ha => h a (by simp [ha]))

theorem nodup_dkeys_dupdate {t : List (α × β)} (e : List (α × β))
    (h : (dkeys t).Nodup) : (dkeys (dupdate t e)).Nodup := by
  induction e generalizing t with
  | nil => simpa [dupdate]
  | cons p e ih =>
      obtain ⟨k0, v0⟩ := p
      show (dkeys (dupdate (dinsert k0 v0 t) e)).Nodup
      exact ih (nodup_dkeys_dinsert h)

/-- Re-applying the same binding list is a no-op: the key upsert semantics
make `dupdate` idempotent on well-formed dicts. -/
theorem dupdate_idem {t : List (α × β)} (e : List (α × β)) (h : (dkeys t).Nodup) :
    dupdate (dupdate t e) e = dupdate t e := by
  apply dict_ext (nodup_dkeys_dupdate e (nodup_dkeys_dupdate e h)) (nodup_dkeys_dupdate e h)
  · rw [dkeys_dupdate (dupdate t e) e, dkeys_dupdate t e]
    apply foldl_keys_of_subset
    intro a ha
    rw [mem_foldl_keys]
    exact Or.inr ha
  · intro k
    rw [dlookup_dupdate k (dupdate t e) e, dlookup_dupdate k t e]
    cases hfold : e.foldl (fun acc p => if p.1 = k then some p.2 else acc) (none : Option β) with
    | some v =>
        rw [foldl_lastwins e k
              (e.foldl (fun acc p => if p.1 = k then some p.2 else acc) (dlookup k t)),
            foldl_lastwins e k (dlookup k t), hfold]
    | none =>
        have h1 : e.foldl (fun acc p => if p.1 = k then some p.2 else acc) (dlookup k t)
            = dlookup k t := by
          rw [foldl_lastwins e k (dlookup k t), hfold]
        rw [h1]
        exact h1

end PyDict

/-! ## Idempotence of the persisted upserts (claim C1) -/

/-- The upserts of an op list that target `api_meetings`. -/
def opMeetings (ops : List Op) : List (String × MeetingRow) :=
  ops.filterMap fun op => match op with | .meeting id row => some (id, row) | _ => none

/-- The upserts of an op list that target `api_races`. -/
def opRaces (ops : List Op) : List (String × RaceRow) :=
  ops.filterMap fun op => match op with | .race id row => some (id, row) | _ => none

/-- The upserts of an op list that target `api_runners`. -/
def opRunners (ops : List Op) : List (String × RunnerRow) :=
  ops.filterMap fun op => match op with | .runner id row => some (id, row) | _ => none

/-- The upserts of an op list that target `api_results`. -/
def opResults (ops : List Op) : List (String × ResultRow) :=
  ops.filterMap fun op => match op with | .result id row => some (id, row) | _ => none

/-- The upserts of an op list that target `api_entities`. -/
def opEntities (ops : List Op) : List ((String × String) × EntityRow) :=
  ops.filterMap fun op => match op with | .entity key row => some (key, row) | _ => none

/-- The upserts of an op list that target `api_kv`. -/
def opKvs (ops : List Op) : List ((String × String × String) × KvRow) :=
  ops.filterMap fun op => match op with | .kv key row => some (key, row) | _ => none

theorem dupdate_nil {α β : Type _} [DecidableEq α] (t : List (α × β)) : dupdate t [] = t := rfl

theorem dupdate_cons {α β : Type _} [DecidableEq α] (t : List (α × β)) (k : α) (v : β)
    (e : List (α × β)) : dupdate t ((k, v) :: e) = dupdate (dinsert k v t) e := rfl

/-- Executing an op list is, per table, one `dupdate` with that table's
projected binding list. -/
theorem applyOps_decompose (ops : List Op) (s : Store) :
    applyOps ops s =
      ⟨dupdate s.api_meetings (opMeetings ops),
       dupdate s.api_races (opRaces ops),
       dupdate s.api_runners (opRunners ops),
       dupdate s.api_results (opResults ops),
       dupdate s.api_entities (opEntities ops),
       dupdate s.api_kv (opKvs ops)⟩ := by
  induction ops generalizing s with
  | nil =>
      cases s
      simp [applyOps, opMeetings, opRaces, opRunners, opResults, opEntities, opKvs, dupdate_nil]
  | cons op ops ih =>
      have step : applyOps (op :: ops) s = applyOps ops (Op.apply s op) := rfl
      rw [step, ih]
      cases op <;>
        simp [Op.apply, opMeetings, opRaces, opRunners, opResults, opEntities, opKvs,
          dupdate_cons]

/-- Well-formedness of the store: every table's primary keys are free of
duplicates. -/
def Store.wf (s : Store) : Prop :=
  (dkeys s.api_meetings).Nodup ∧ (dkeys s.api_races).Nodup ∧ (dkeys s.api_runners).Nodup ∧
  (dkeys s.api_results).Nodup ∧ (dkeys s.api_entities).Nodup ∧ (dkeys s.api_kv).Nodup

instance (s : Store) : Decidable s.wf := by unfold Store.wf; infer_instance

theorem applyOps_wf (ops : List Op) (s : Store) (h : s.wf) : (applyOps ops s).wf := by
  rw [applyOps_decompose]
  exact ⟨nodup_dkeys_dupdate _ h.1, nodup_dkeys_dupdate _ h.2.1, nodup_dkeys_dupdate _ h.2.2.1,
    nodup_dkeys_dupdate _ h.2.2.2.1, nodup_dkeys_dupdate _ h.2.2.2.2.1,
    nodup_dkeys_dupdate _ h.2.2.2.2.2⟩

theorem applyOps_idem (ops : List Op) (s : Store) (h : s.wf) :
    applyOps ops (applyOps ops s) = applyOps ops s := by
  obtain ⟨h1, h2, h3, h4, h5, h6⟩ := h
  rw [applyOps_decompose ops s, applyOps_decompose ops]
  simp only [Store.mk.injEq]
  exact ⟨dupdate_idem _ h1, dupdate_idem _ h2, dupdate_idem _ h3, dupdate_idem _ h4,
    dupdate_idem _ h5, dupdate_idem _ h6⟩

/-- The counts and op list of the persist phase (they depend only on the
payloads, never on the prior store contents). -/
def phaseSt (date : String) (regions : List String) (racecards results : Json)
    (cancelFrom : Option Nat) : Counts × List Op :=
  let stM := persistMeetings date regions cancelFrom (_extract_list racecards)
    (⟨0, 0, 0, 0, 0, 0⟩, [], 1)
  persistResults date (_extract_list results) (stM.1, stM.2.1)

theorem ingestPersistPhase_eq (date : String) (regions : List String)
    (racecards results : Json) (errors : List String) (cancelFrom : Option Nat) (s : Store) :
    ingestPersistPhase date regions racecards results errors cancelFrom s =
      (⟨date, regions, (phaseSt date regions racecards results cancelFrom).1, errors⟩,
       applyOps (phaseSt date regions racecards results cancelFrom).2 s) := rfl

/-- C1: ingestion is idempotent — for fixed (date, regions, racecards,
results) inputs, a second `ingest_api_day` run returns the same report and
leaves every table exactly as the first run did, and the store never
acquires duplicate primary keys. -/
theorem claim_C1_ingest_idempotent (date : String) (regions : List String)
    (racecards results : Json) (s : Store) (hwf : s.wf) :
    ∃ rep s₁,
      ingest_api_day date regions racecards (.ok results) none s = .ok (rep, s₁)
      ∧ ingest_api_day date regions racecards (.ok results) none s₁ = .ok (rep, s₁)
      ∧ s₁.wf := by
  have h1 : ∀ t : Store, ingest_api_day date regions racecards (.ok results) none t
      = .ok (⟨date, regions, (phaseSt date regions racecards results none).1, []⟩,
             applyOps (phaseSt date regions racecards results none).2 t) := fun t => rfl
  refine ⟨_, applyOps (phaseSt date regions racecards results none).2 s, h1 s, ?_, ?_⟩
  · rw [h1 (applyOps (phaseSt date regions racecards results none).2 s),
        applyOps_idem _ _ hwf]
  · exact applyOps_wf _ _ hwf

theorem claim_C1_witness :
    (Store.mk [] [] [] [] [] []).wf ∧
    ∃ rep s₁,
      ingest_api_day "2025-01-01" ["gb"]
          (Json.arr [Json.obj [("meeting_id", Json.str "m1")]])
          (.ok (Json.obj [("results", Json.arr [])])) none ⟨[], [], [], [], [], []⟩
        = .ok (rep, s₁)
      ∧ ingest_api_day "2025-01-01" ["gb"]
          (Json.arr [Json.obj [("meeting_id", Json.str "m1")]])
          (.ok (Json.obj [("results", Json.arr [])])) none s₁
        = .ok (rep, s₁)
      ∧ s₁.wf :=
  ⟨by decide, claim_C1_ingest_idempotent "2025-01-01" ["gb"]
    (Json.arr [Json.obj [("meeting_id", Json.str "m1")]])
    (Json.obj [("results", Json.arr [])]) ⟨[], [], [], [], [], []⟩ (by decide)⟩

/-! ## C2: exact retry counts -/

/-- An environment whose first `N` responses are HTTP 503 and whose later
responses are HTTP 200 with a fixed body. -/
def c2Outcomes (N : Nat) (body : Json) : Nat → Outcome :=
  fun n => if n < N then .response 503 Json.null else .response 200 body

theorem requestGo_c2_ok (N maxRetries : Nat) (body : Json) :
    ∀ attempt sent, attempt ≤ N → N ≤ maxRetries →
      requestGo (c2Outcomes N body) maxRetries attempt sent = (.ok body, sent + (N - attempt) + 1)
  | attempt, sent, h1, h2 => by
      rw [requestGo]
      by_cases hlt : attempt < N
      · have hout : c2Outcomes N body attempt = .response 503 Json.null := by
          simp [c2Outcomes, hlt]
        rw [hout]
        dsimp only
        have hcond : ¬(200 ≤ 503 ∧ 503 < 300) := by omega
        rw [if_neg hcond]
        have hretry : (503 ∈ retrySet) ∧ attempt < maxRetries :=
          ⟨by decide, lt_of_lt_of_le hlt h2⟩
        rw [dif_pos hretry]
        rw [requestGo_c2_ok N maxRetries body (attempt + 1) (sent + 1)
          (Nat.succ_le_of_lt hlt) h2]
        simp only [Prod.mk.injEq, true_and]
        omega
      · have heq : attempt = N := le_antisymm h1 (not_lt.mp hlt)
        subst heq
        have hout : c2Outcomes attempt body attempt = .response 200 body := by
          simp [c2Outcomes]
        rw [hout]
        dsimp only
        have hcond : (200 ≤ 200 ∧ 200 < 300) := by omega
        rw [if_pos hcond]
        simp only [Prod.mk.injEq, true_and]
        omega
  termination_by attempt => N - attempt

theorem requestGo_c2_fail (N maxRetries : Nat) (body : Json) :
    ∀ attempt sent, attempt ≤ maxRetries → maxRetries < N →
      requestGo (c2Outcomes N body) maxRetries attempt sent
        = (.error (.status 503), sent + (maxRetries - attempt) + 1)
  | attempt, sent, h1, h2 => by
      have hltN : attempt < N := lt_of_le_of_lt h1 h2
      rw [requestGo]
      have hout : c2Outcomes N body attempt = .response 503 Json.null := by
        simp [c2Outcomes, hltN]
      rw [hout]
      dsimp only
      have hcond : ¬(200 ≤ 503 ∧ 503 < 300) := by omega
      rw [if_neg hcond]
      by_cases hatt : attempt < maxRetries
      · rw [dif_pos ⟨by decide, hatt⟩]
        rw [requestGo_c2_fail N maxRetries body (attempt + 1) (sent + 1)
          (Nat.succ_le_of_lt hatt) h2]
        simp only [Prod.mk.injEq, true_and]
        omega
      · have heq : attempt = maxRetries := le_antisymm h1 (not_lt.mp hatt)
        rw [dif_neg (by exact fun hc => hatt hc.2)]
        simp only [Prod.mk.injEq, true_and]
        omega
  termination_by attempt => N - attempt

/-- C2: with the first `N` responses 503 and the `(N+1)`-th 200, `_request`
returns the parsed body after exactly `N+1` HTTP attempts when
`max_retries ≥ N`, and raises (the 503 `HTTPError`) after exactly
`max_retries+1` attempts when `max_retries < N`. -/
theorem claim_C2_retry_counts (N maxRetries : Nat) (body : Json) :
    (N ≤ maxRetries →
      clientRequest (c2Outcomes N body) maxRetries = (.ok body, N + 1))
    ∧ (maxRetries < N →
      clientRequest (c2Outcomes N body) maxRetries = (.error (.status 503), maxRetries + 1)) := by
  constructor
  · intro h
    have := requestGo_c2_ok N maxRetries body 0 0 (Nat.zero_le N) h
    simpa [clientRequest] using this
  · intro h
    have := requestGo_c2_fail N maxRetries body 0 0 (Nat.zero_le maxRetries) h
    simpa [clientRequest] using this

theorem claim_C2_witness :
    (2 ≤ 4 ∧ clientRequest (c2Outcomes 2 (Json.str "ok")) 4 = (.ok (Json.str "ok"), 3))
    ∧ (3 < 5 ∧ clientRequest (c2Outcomes 5 (Json.str "ok")) 3 = (.error (.status 503), 4)) :=
  ⟨⟨by decide, (claim_C2_retry_counts 2 4 (Json.str "ok")).1 (by decide)⟩,
   ⟨by decide, (claim_C2_retry_counts 5 3 (Json.str "ok")).2 (by decide)⟩⟩

/-! ## C9: non-retryable failures and retry exhaustion -/

theorem retrySet_not_2xx {c : Nat} (h : c ∈ retrySet) : ¬(200 ≤ c ∧ c < 300) := by
  fin_cases h <;> omega

theorem requestGo_allRetry (outcomes : Nat → Outcome) (c : Nat → Nat) (b : Nat → Json)
    (maxRetries : Nat) :
    ∀ attempt sent, attempt ≤ maxRetries →
      (∀ n, n ≤ maxRetries → outcomes n = .response (c n) (b n)) →
      (∀ n, n ≤ maxRetries → c n ∈ retrySet) →
      requestGo outcomes maxRetries attempt sent
        = (.error (.status (c maxRetries)), sent + (maxRetries - attempt) + 1)
  | attempt, sent, h1, hout, hmem => by
      rw [requestGo, hout attempt h1]
      dsimp only
      rw [if_neg (retrySet_not_2xx (hmem attempt h1))]
      by_cases hatt : attempt < maxRetries
      · rw [dif_pos ⟨hmem attempt h1, hatt⟩]
        rw [requestGo_allRetry outcomes c b maxRetries (attempt + 1) (sent + 1)
          (Nat.succ_le_of_lt hatt) hout hmem]
        simp only [Prod.mk.injEq, true_and]
        omega
      · have heq : attempt = maxRetries := le_antisymm h1 (not_lt.mp hatt)
        rw [dif_neg (by exact fun hc => hatt hc.2)]
        subst heq
        simp only [Prod.mk.injEq, true_and]
        omega
  termination_by attempt => maxRetries - attempt

/-- C9: a response with a non-retryable HTTP status, or a raised exception
that is neither status-retryable nor a transport error, makes `_request`
raise after exactly one attempt, for any retry budget; and when every
attempt fails retryably, `_request` raises the last error (the one of the
final attempt) after `max_retries + 1` attempts. -/
theorem claim_C9_nonretryable_and_exhaustion (outcomes : Nat → Outcome) (maxRetries : Nat) :
    (∀ code body, outcomes 0 = .response code body → ¬(200 ≤ code ∧ code < 300) →
      code ∉ retrySet →
      clientRequest outcomes maxRetries = (.error (.status code), 1))
    ∧ (∀ code transport, outcomes 0 = .raised code transport →
      excRetryable code transport = false →
      clientRequest outcomes maxRetries = (.error (.raised code transport), 1))
    ∧ (∀ (c : Nat → Nat) (b : Nat → Json),
      (∀ n, n ≤ maxRetries → outcomes n = .response (c n) (b n)) →
      (∀ n, n ≤ maxRetries → c n ∈ retrySet) →
      clientRequest outcomes maxRetries = (.error (.status (c maxRetries)), maxRetries + 1)) := by
  refine ⟨?_, ?_, ?_⟩
  · intro code body h0 h2xx hretry
    unfold clientRequest
    rw [requestGo, h0]
    dsimp only
    rw [if_neg h2xx, dif_neg (by exact fun hc => hretry hc.1)]
  · intro code transport h0 hretry
    unfold clientRequest
    rw [requestGo, h0]
    dsimp only
    rw [dif_pos (Or.inr hretry)]
  · intro c b hout hmem
    have := requestGo_allRetry outcomes c b maxRetries 0 0 (Nat.zero_le _) hout hmem
    simpa [clientRequest] using this

theorem claim_C9_witness :
    ((fun _ => Outcome.response 404 Json.null) 0 = Outcome.response 404 Json.null
      ∧ ¬(200 ≤ 404 ∧ 404 < 300) ∧ 404 ∉ retrySet
      ∧ clientRequest (fun _ => Outcome.response 404 Json.null) 4
          = (.error (.status 404), 1))
    ∧ ((fun _ => Outcome.raised none false) 0 = Outcome.raised none false
      ∧ excRetryable none false = false
      ∧ clientRequest (fun _ => Outcome.raised none false) 4
          = (.error (.raised none false), 1))
    ∧ clientRequest (fun _ => Outcome.response 500 Json.null) 2
        = (.error (.status 500), 3) :=
  ⟨⟨rfl, by decide, by decide,
      (claim_C9_nonretryable_and_exhaustion (fun _ => Outcome.response 404 Json.null) 4).1
        404 Json.null rfl (by decide) (by decide)⟩,
   ⟨rfl, by decide,
      (claim_C9_nonretryable_and_exhaustion (fun _ => Outcome.raised none false) 4).2.1
        none false rfl (by decide)⟩,
   (claim_C9_nonretryable_and_exhaustion (fun _ => Outcome.response 500 Json.null) 2).2.2
      (fun _ => 500) (fun _ => Json.null) (fun _ _ => rfl)
      (fun _ _ => (by decide : (500 : Nat) ∈ retrySet))⟩

/-! ## C10: the summaries fetch falls back on every exception -/

/-- C10: `fetch_daily_racecard_summaries` catches every exception of the
summaries `_request` — including the cancellation error — and issues a full
`fetch_daily_racecards` instead; in particular a cancellation raised during
the summaries fetch does not terminate the call but starts (and returns the
result of) a full racecards fetch. -/
theorem claim_C10_summaries_fallback (sumOutcomes fullOutcomes : Nat → Outcome)
    (maxRetries : Nat) :
    (∀ e : ReqError, (clientRequest sumOutcomes maxRetries).1 = .error e →
      fetch_daily_racecard_summaries sumOutcomes fullOutcomes maxRetries
        = (clientRequest fullOutcomes maxRetries).1)
    ∧ (sumOutcomes 0 = .cancelledHere →
      (clientRequest sumOutcomes maxRetries).1 = .error .cancelled
      ∧ ∀ body : Json, (clientRequest fullOutcomes maxRetries).1 = .ok body →
        fetch_daily_racecard_summaries sumOutcomes fullOutcomes maxRetries = .ok body) := by
  constructor
  · intro e he
    unfold fetch_daily_racecard_summaries
    rw [he]
  · intro h0
    have hc : (clientRequest sumOutcomes maxRetries).1 = .error .cancelled := by
      unfold clientRequest
      rw [requestGo, h0]
    refine ⟨hc, ?_⟩
    intro body hfull
    unfold fetch_daily_racecard_summaries
    rw [hc, hfull]

theorem claim_C10_witness :
    (fun _ => Outcome.cancelledHere) 0 = Outcome.cancelledHere
    ∧ (clientRequest (fun _ => Outcome.cancelledHere) 4).1 = .error .cancelled
    ∧ fetch_daily_racecard_summaries (fun _ => Outcome.cancelledHere)
        (fun _ => Outcome.response 200 (Json.str "full")) 4 = .ok (Json.str "full") := by
  have hfull : (clientRequest (fun _ => Outcome.response 200 (Json.str "full")) 4).1
      = .ok (Json.str "full") := by
    unfold clientRequest
    rw [requestGo]
    dsimp only
    rw [if_pos (by omega : (200 : Nat) ≤ 200 ∧ (200 : Nat) < 300)]
  exact ⟨rfl,
    ((claim_C10_summaries_fallback (fun _ => Outcome.cancelledHere)
      (fun _ => Outcome.response 200 (Json.str "full")) 4).2 rfl).1,
    ((claim_C10_summaries_fallback (fun _ => Outcome.cancelledHere)
      (fun _ => Outcome.response 200 (Json.str "full")) 4).2 rfl).2
      (Json.str "full") hfull⟩

/-! ## C6: typed-value classification -/

/-- How many of the three typed slots are populated. -/
def populatedCount (tv : Option String × Option ℚ × Option String) : Nat :=
  (if tv.1.isSome then 1 else 0) + (if tv.2.1.isSome then 1 else 0) +
    (if tv.2.2.isSome then 1 else 0)

/-- C6: `_typed_values` populates exactly one slot for every leaf value; a
non-boolean number is always and only numeric, a string always and only
text, and booleans and nulls always and only JSON-serialized. -/
theorem claim_C6_typed_values_exclusive (v : Json) :
    populatedCount (_typed_values v) = 1
    ∧ (∀ q : ℚ, v = .num q → _typed_values v = (none, some q, none))
    ∧ (∀ s : String, v = .str s → _typed_values v = (some s, none, none))
    ∧ (∀ b : Bool, v = .bool b → _typed_values v = (none, none, some (compactJson (.bool b))))
    ∧ (v = .null → _typed_values v = (none, none, some (compactJson .null))) := by
  cases v <;> simp [_typed_values, populatedCount]

theorem claim_C6_witness :
    populatedCount (_typed_values (Json.num 3)) = 1
    ∧ _typed_values (Json.num 3) = (none, some 3, none)
    ∧ _typed_values (Json.bool true) = (none, none, some (compactJson (Json.bool true))) :=
  ⟨(claim_C6_typed_values_exclusive (Json.num 3)).1,
   (claim_C6_typed_values_exclusive (Json.num 3)).2.1 3 rfl,
   (claim_C6_typed_values_exclusive (Json.bool true)).2.2.2.1 true rfl⟩

/-! ## C3: concrete end-to-end scenario -/

/-- The meeting payload of the end-to-end scenario. -/
def c3Racecards : Json :=
  Json.arr [Json.obj
    [("meeting_id", Json.str "m1"),
     ("races", Json.arr [Json.obj
       [("race_id", Json.str "r1"),
        ("runners", Json.arr
          [Json.obj [("runner_id", Json.str "ru1"), ("runner_name", Json.str "A")],
           Json.obj [("runner_id", Json.str "ru2"), ("runner_name", Json.str "B")]])]])]]

/-- The results payload of the end-to-end scenario. -/
def c3Results : Json :=
  Json.obj [("results", Json.arr
    [Json.obj [("race_id", Json.str "r1"), ("winner_runner_id", Json.str "ru2")]])]

/-- A fresh store. -/
def emptyStore : Store := ⟨[], [], [], [], [], []⟩

/-- C3: ingesting the scenario payloads stores exactly 1 meeting, 1 race,
2 runners, and 1 result row whose `winner_runner_id` is `"ru2"`, and the
report counts are meetings=1, races=1, runners=2, results=1. -/
theorem claim_C3_end_to_end :
    ∃ rep s,
      ingest_api_day "2025-01-01" ["gb"] c3Racecards (.ok c3Results) none emptyStore
        = .ok (rep, s)
      ∧ rep.counts.meetings = 1 ∧ rep.counts.races = 1 ∧ rep.counts.runners = 2
      ∧ rep.counts.results = 1
      ∧ s.api_meetings.length = 1 ∧ s.api_races.length = 1 ∧ s.api_runners.length = 2
      ∧ s.api_results.length = 1
      ∧ (dlookup "r1" s.api_results).map ResultRow.winner_runner_id = some (some "ru2") := by
  refine ⟨_, _, rfl, ?_, ?_, ?_, ?_, ?_, ?_, ?_, ?_, ?_⟩ <;> decide

/-! ## C4: plan-restriction soft failure -/

/-- Counters-invariance helper: a fold whose step preserves the `results`
counter preserves it. -/
theorem foldl_results_invariant {τ : Type _} (f : Counts × List Op → τ → Counts × List Op)
    (h : ∀ st t, (f st t).1.results = st.1.results) :
    ∀ (l : List τ) (st : Counts × List Op), (l.foldl f st).1.results = st.1.results := by
  intro l
  induction l with
  | nil => intro st; rfl
  | cons t rest ih =>
      intro st
      rw [List.foldl_cons, ih, h]

theorem persistNested_results (meeting_date country runner_id : String) (items : JDict)
    (st : Counts × List Op) :
    (persistNested meeting_date country runner_id items st).1.results = st.1.results := by
  refine foldl_results_invariant _ ?_ items st
  intro st kv
  cases kv with
  | mk k v => cases v <;> rfl

theorem persistRunner_results (meeting_date country race_id : String)
    (st : Counts × List Op) (runner : Json) :
    (persistRunner meeting_date country race_id st runner).1.results = st.1.results := by
  cases runner <;> first
    | rfl
    | (rename_i r
       show (persistNested _ _ _ _ _).1.results = _
       rw [persistNested_results])

theorem persistRace_results (meeting_date country meeting_id : String)
    (st : Counts × List Op) (race : Json) :
    (persistRace meeting_date country meeting_id st race).1.results = st.1.results := by
  cases race <;> first
    | rfl
    | (rename_i rc
       show (List.foldl (persistRunner meeting_date country _) _ _).1.results = _
       rw [foldl_results_invariant _ (persistRunner_results meeting_date country _)])

theorem persistMeeting_results (date : String) (regions : List String)
    (st : Counts × List Op) (m : JDict) :
    (persistMeeting date regions st m).1.results = st.1.results := by
  show (List.foldl (persistRace _ _ _) _ _).1.results = _
  rw [foldl_results_invariant _ (persistRace_results _ _ _)]

theorem persistMeetings_results (date : String) (regions : List String)
    (cancelFrom : Option Nat) :
    ∀ (ms : List JDict) (st : Counts × List Op × Nat),
      (persistMeetings date regions cancelFrom ms st).1.results = st.1.results := by
  intro ms
  induction ms with
  | nil => intro st; rfl
  | cons m rest ih =>
      intro st
      obtain ⟨counts, ops, checks⟩ := st
      by_cases hc : cancelSet cancelFrom checks = true
      · simp only [persistMeetings, hc, if_true]
      · simp only [persistMeetings, if_neg hc]
        rw [ih]
        exact persistMeeting_results date regions (counts, ops) m

/-- With no results rows, the results counter of the persist phase is 0. -/
theorem phaseSt_results_empty (date : String) (regions : List String) (racecards : Json)
    (cancelFrom : Option Nat) :
    (phaseSt date regions racecards (Json.obj [("results", Json.arr [])]) cancelFrom).1.results
      = 0 := by
  show (persistResults date (_extract_list (Json.obj [("results", Json.arr [])])) _).1.results = 0
  have hempty : _extract_list (Json.obj [("results", Json.arr [])]) = [] := rfl
  rw [hempty]
  show (persistMeetings date regions cancelFrom (_extract_list racecards)
    (⟨0, 0, 0, 0, 0, 0⟩, [], 1)).1.results = 0
  rw [persistMeetings_results]

/-- C4: a results-fetch failure whose message mentions (case-insensitively)
both "standard" and "plan" is downgraded: the run completes with
`results = 0`, the explanatory message in the error list, and the same
racecard-derived store contents and counters as a run whose results payload
is empty; any other results-fetch failure propagates and aborts the run. -/
theorem claim_C4_plan_restriction_soft_fail (date : String) (regions : List String)
    (racecards : Json) (msg : String) (s : Store) :
    ((occursIn (asciiLower msg) "standard" && occursIn (asciiLower msg) "plan") = true →
      ∃ rep s₁,
        ingest_api_day date regions racecards (.error msg) none s = .ok (rep, s₁)
        ∧ rep.counts.results = 0
        ∧ rep.errors
            = ["Results endpoint unavailable on current plan; ingesting racecards only."]
        ∧ ingest_api_day date regions racecards (.ok (Json.obj [("results", Json.arr [])]))
            none s = .ok (⟨date, regions, rep.counts, []⟩, s₁))
    ∧ ((occursIn (asciiLower msg) "standard" && occursIn (asciiLower msg) "plan") = false →
      ingest_api_day date regions racecards (.error msg) none s = .error msg) := by
  constructor
  · intro hsoft
    refine ⟨⟨date, regions,
        (phaseSt date regions racecards (Json.obj [("results", Json.arr [])]) none).1,
        ["Results endpoint unavailable on current plan; ingesting racecards only."]⟩,
      applyOps (phaseSt date regions racecards (Json.obj [("results", Json.arr [])]) none).2 s,
      ?_, ?_, rfl, rfl⟩
    · show ingest_api_day date regions racecards (.error msg) none s = _
      unfold ingest_api_day
      simp only [cancelSet, Bool.false_eq_true, if_false, hsoft, if_true]
      exact congrArg Except.ok (ingestPersistPhase_eq date regions racecards
        (Json.obj [("results", Json.arr [])])
        ["Results endpoint unavailable on current plan; ingesting racecards only."] none s)
    · exact phaseSt_results_empty date regions racecards none
  · intro hhard
    unfold ingest_api_day
    simp only [cancelSet, Bool.false_eq_true, if_false, hhard]

theorem claim_C4_witness :
    ((occursIn (asciiLower "403: requires the Standard PLAN") "standard"
        && occursIn (asciiLower "403: requires the Standard PLAN") "plan") = true
      ∧ ∃ rep s₁,
          ingest_api_day "2025-01-01" ["gb"] c3Racecards
              (.error "403: requires the Standard PLAN") none emptyStore = .ok (rep, s₁)
          ∧ rep.counts.results = 0
          ∧ rep.errors
              = ["Results endpoint unavailable on current plan; ingesting racecards only."]
          ∧ ingest_api_day "2025-01-01" ["gb"] c3Racecards
              (.ok (Json.obj [("results", Json.arr [])])) none emptyStore
              = .ok (⟨"2025-01-01", ["gb"], rep.counts, []⟩, s₁))
    ∧ ((occursIn (asciiLower "404 not found") "standard"
        && occursIn (asciiLower "404 not found") "plan") = false
      ∧ ingest_api_day "2025-01-01" ["gb"] c3Racecards (.error "404 not found") none emptyStore
          = .error "404 not found") :=
  ⟨⟨by decide, (claim_C4_plan_restriction_soft_fail "2025-01-01" ["gb"] c3Racecards
      "403: requires the Standard PLAN" emptyStore).1 (by decide)⟩,
   ⟨by decide, (claim_C4_plan_restriction_soft_fail "2025-01-01" ["gb"] c3Racecards
      "404 not found" emptyStore).2 (by decide)⟩⟩


/-! ## C8: cancellation during ingestion -/

/-- The meeting loop with the signal first seen at check `checks + n`
processes exactly the first `n` meetings (counts and ops agree with an
uncancelled run over `ms.take n`). -/
theorem persistMeetings_cancel_take (date : String) (regions : List String) :
    ∀ (ms : List JDict) (n : Nat) (counts : Counts) (ops : List Op) (checks : Nat),
      ((persistMeetings date regions (some (checks + n)) ms (counts, ops, checks)).1,
       (persistMeetings date regions (some (checks + n)) ms (counts, ops, checks)).2.1)
      = ((persistMeetings date regions none (ms.take n) (counts, ops, checks)).1,
         (persistMeetings date regions none (ms.take n) (counts, ops, checks)).2.1) := by
  intro ms
  induction ms with
  | nil => intro n counts ops checks; simp [persistMeetings]
  | cons m rest ih =>
      intro n counts ops checks
      cases n with
      | zero =>
          have hc : cancelSet (some checks) checks = true := by
            simp [cancelSet]
          simp [persistMeetings, hc]
      | succ n =>
          have hc : cancelSet (some (checks + (n + 1))) checks = false := by
            simp [cancelSet]
          simp only [persistMeetings, hc, Bool.false_eq_true, if_false, List.take_succ_cons]
          have harith : checks + (n + 1) = (checks + 1) + n := by omega
          rw [harith]
          exact ih n _ _ (checks + 1)

/-- C8 (counterexample): with the signal first observed at the meeting-loop
check (check index 1), no meeting is persisted — but `ingest_api_day` still
persists the results row afterwards and returns a report, so entities ARE
persisted after the signal is observed, refuting the claim as stated. -/
theorem claim_C8_counterexample :
    ∃ rep s,
      ingest_api_day "2025-01-01" ["gb"] c3Racecards (.ok c3Results) (some 1) emptyStore
        = .ok (rep, s)
      ∧ rep.counts.meetings = 0
      ∧ s.api_meetings = []
      ∧ rep.counts.results = 1
      ∧ s.api_results.length = 1 := by
  refine ⟨_, _, rfl, ?_, ?_, ?_, ?_⟩ <;> decide

/-- C8 (amended): when the signal is observed at the post-fetch check,
`ingest_api_day` returns the zero-count report with the store untouched
(rather than raising); when it is first observed at the `n+1`-th check (the
meeting loop's checks are 1, 2, ...), only the first `n` meetings are
persisted — the loop stops early — but the results loop still runs in full
and its rows are persisted, and a partial report is returned. -/
theorem claim_C8_amended_cancellation :
    (∀ (date : String) (regions : List String) (rc res : Json) (s : Store),
      ingest_api_day date regions rc (.ok res) (some 0) s
        = .ok (⟨date, regions, ⟨0, 0, 0, 0, 0, 0⟩, []⟩, s))
    ∧ (∀ (date : String) (regions : List String) (rc res : Json) (s : Store) (n : Nat),
      ingest_api_day date regions rc (.ok res) (some (n + 1)) s
        = .ok
          (⟨date, regions,
            (persistResults date (_extract_list res)
              ((persistMeetings date regions none ((_extract_list rc).take n)
                 (⟨0, 0, 0, 0, 0, 0⟩, [], 1)).1,
               (persistMeetings date regions none ((_extract_list rc).take n)
                 (⟨0, 0, 0, 0, 0, 0⟩, [], 1)).2.1)).1, []⟩,
           applyOps
             (persistResults date (_extract_list res)
               ((persistMeetings date regions none ((_extract_list rc).take n)
                  (⟨0, 0, 0, 0, 0, 0⟩, [], 1)).1,
                (persistMeetings date regions none ((_extract_list rc).take n)
                  (⟨0, 0, 0, 0, 0, 0⟩, [], 1)).2.1)).2 s)) := by
  constructor
  · intro date regions rc res s
    rfl
  · intro date regions rc res s n
    have hphase : phaseSt date regions rc res (some (n + 1))
        = persistResults date (_extract_list res)
            ((persistMeetings date regions none ((_extract_list rc).take n)
               (⟨0, 0, 0, 0, 0, 0⟩, [], 1)).1,
             (persistMeetings date regions none ((_extract_list rc).take n)
               (⟨0, 0, 0, 0, 0, 0⟩, [], 1)).2.1) := by
      unfold phaseSt
      have htake := persistMeetings_cancel_take date regions (_extract_list rc) n
        ⟨0, 0, 0, 0, 0, 0⟩ [] 1
      rw [show 1 + n = n + 1 from by omega] at htake
      rw [Prod.mk.injEq] at htake
      obtain ⟨h1, h2⟩ := htake
      dsimp only
      rw [h1, h2]
    have hcan : cancelSet (some (n + 1)) 0 = false := by simp [cancelSet]
    unfold ingest_api_day
    simp only [hcan, Bool.false_eq_true, if_false]
    rw [ingestPersistPhase_eq, hphase]

/-! ## C7: cancellable sleeping -/

theorem sleepGo_spec (cancel : Nat → Bool) (seconds elapsed : ℚ) (i : Nat) :
    (∀ step ∈ (sleepGo cancel seconds elapsed i).1, step ≤ 1 / 5)
    ∧ (∀ k, i ≤ k → cancel k = true → (sleepGo cancel seconds elapsed i).1.length ≤ k - i)
    ∧ (∀ k, i ≤ k → cancel k = true →
        elapsed + ((k - i : Nat) : ℚ) * (1 / 5) < seconds →
        (sleepGo cancel seconds elapsed i).2 = true) := by
  by_cases h : elapsed < seconds
  · by_cases hc : cancel i = true
    · rw [sleepGo, dif_pos h, if_pos hc]
      refine ⟨?_, ?_, ?_⟩
      · intro step hstep; simp at hstep
      · intro k hk hck; simp
      · intro k hk hck hlt; rfl
    · have IH := sleepGo_spec cancel seconds (elapsed + min (1 / 5 : ℚ) (seconds - elapsed))
        (i + 1)
      obtain ⟨IH1, IH2, IH3⟩ := IH
      rw [sleepGo, dif_pos h, if_neg hc]
      dsimp only
      have hnext : ∀ k, i ≤ k → cancel k = true → i + 1 ≤ k := by
        intro k hk hck
        rcases Nat.eq_or_lt_of_le hk with heq | h'
        · exact absurd hck (heq ▸ hc)
        · omega
      refine ⟨?_, ?_, ?_⟩
      · intro st hst
        rcases List.mem_cons.mp hst with rfl | hmem
        · exact min_le_left _ _
        · exact IH1 st hmem
      · intro k hk hck
        have hki := hnext k hk hck
        have := IH2 k hki hck
        simp only [List.length_cons]
        omega
      · intro k hk hck hlt
        apply IH3 k (hnext k hk hck) hck
        have hstep_le : min (1 / 5 : ℚ) (seconds - elapsed) ≤ 1 / 5 := min_le_left _ _
        have hki := hnext k hk hck
        have hcast : ((k - i : Nat) : ℚ) = ((k - (i + 1) : Nat) : ℚ) + 1 := by
          have h' : (k - i : Nat) = (k - (i + 1) : Nat) + 1 := by omega
          rw [h']; push_cast; ring
        rw [hcast] at hlt
        linarith
  · rw [sleepGo, dif_neg h]
    refine ⟨?_, ?_, ?_⟩
    · intro st hst; simp at hst
    · intro k hk hck; simp
    · intro k hk hck hlt
      exfalso
      have hpos : (0 : ℚ) ≤ ((k - i : Nat) : ℚ) * (1 / 5) := by positivity
      exact h (by linarith)
  termination_by (⌈(seconds - elapsed) * 5⌉).toNat
  decreasing_by
    have hrem : (0 : ℚ) < seconds - elapsed := by linarith
    rcases le_or_lt (seconds - elapsed) (1 / 5) with hle | hlt
    · have hstep : min (1 / 5 : ℚ) (seconds - elapsed) = seconds - elapsed := min_eq_right hle
      have hz : seconds - (elapsed + min (1 / 5 : ℚ) (seconds - elapsed)) = 0 := by
        rw [hstep]; ring
      have h1 : (1 : ℤ) ≤ ⌈(seconds - elapsed) * 5⌉ := by
        have : (0 : ℚ) < (seconds - elapsed) * 5 := by positivity
        exact Int.ceil_pos.mpr this
      rw [hz]
      simp only [zero_mul, Int.ceil_zero, Int.toNat_zero]
      omega
    · have hstep : min (1 / 5 : ℚ) (seconds - elapsed) = 1 / 5 := min_eq_left (le_of_lt hlt)
      have harith : (seconds - (elapsed + min (1 / 5 : ℚ) (seconds - elapsed))) * 5
          = (seconds - elapsed) * 5 - 1 := by rw [hstep]; ring
      rw [harith, Int.ceil_sub_one]
      have h2 : (2 : ℤ) ≤ ⌈(seconds - elapsed) * 5⌉ := by
        have : (1 : ℚ) < (seconds - elapsed) * 5 := by nlinarith
        have := Int.lt_ceil.mpr (by exact_mod_cast this : ((1 : ℤ) : ℚ) < (seconds - elapsed) * 5)
        omega
      omega

/-- C7: `_sleep_with_cancel` sleeps only in increments of at most 200 ms
(1/5 s), re-checks the cancellation signal before every increment, performs
no increment from the first set check on (so at most `k` increments happen
when the signal is set at check `k`), and raises the cancellation error
whenever the signal is set at a check the sleep has not yet finished
before. -/
theorem claim_C7_sleep_cancellable (seconds : ℚ) (cancel : Nat → Bool) :
    (∀ step ∈ (sleep_with_cancel seconds cancel).1, step ≤ 1 / 5)
    ∧ (∀ k, cancel k = true → (sleep_with_cancel seconds cancel).1.length ≤ k)
    ∧ (∀ k, cancel k = true → ((k : Nat) : ℚ) * (1 / 5) < seconds →
        (sleep_with_cancel seconds cancel).2 = true) := by
  have h := sleepGo_spec cancel seconds 0 0
  refine ⟨h.1, ?_, ?_⟩
  · intro k hk
    simpa using h.2.1 k (Nat.zero_le k) hk
  · intro k hk hlt
    exact h.2.2 k (Nat.zero_le k) hk (by simpa using hlt)

theorem claim_C7_witness :
    (fun i => decide (2 ≤ i)) 2 = true
    ∧ ((2 : Nat) : ℚ) * (1 / 5) < 1 / 2
    ∧ (sleep_with_cancel (1 / 2) (fun i => decide (2 ≤ i))).1.length ≤ 2
    ∧ (sleep_with_cancel (1 / 2) (fun i => decide (2 ≤ i))).2 = true :=
  ⟨by decide, by norm_num,
   (claim_C7_sleep_cancellable (1 / 2) (fun i => decide (2 ≤ i))).2.1 2 (by decide),
   (claim_C7_sleep_cancellable (1 / 2) (fun i => decide (2 ≤ i))).2.2 2 (by decide)
     (by norm_num)⟩

/-! ## C5: flattening round-trip.

First, injectivity of `toString : Nat → String` (needed because array
indices are embedded in path keys). -/

/-- The decimal digit string of a natural, big-endian (a fuel-free
reformulation of `Nat.toDigits 10`). -/
def digitsStr (n : Nat) : List Char :=
  if n < 10 then [Nat.digitChar n]
  else digitsStr (n / 10) ++ [Nat.digitChar (n % 10)]
  termination_by n
  decreasing_by exact Nat.div_lt_self (by omega) (by norm_num)

theorem digitsStr_eq_lt (n : Nat) (h : n < 10) : digitsStr n = [Nat.digitChar n] := by
  rw [digitsStr, if_pos h]

theorem digitsStr_eq_ge (n : Nat) (h : ¬n < 10) :
    digitsStr n = digitsStr (n / 10) ++ [Nat.digitChar (n % 10)] := by
  rw [digitsStr]
  rw [if_neg h]

theorem toDigitsCore_eq_digitsStr :
    ∀ (f n : Nat) (acc : List Char), n < f →
      Nat.toDigitsCore 10 f n acc = digitsStr n ++ acc
  | 0, n, _, h => absurd h (Nat.not_lt_zero n)
  | f + 1, n, acc, h => by
      show (if n / 10 = 0 then Nat.digitChar (n % 10) :: acc
            else Nat.toDigitsCore 10 f (n / 10) (Nat.digitChar (n % 10) :: acc))
          = digitsStr n ++ acc
      by_cases h10 : n / 10 = 0
      · have hn : n < 10 := by omega
        rw [if_pos h10, digitsStr_eq_lt n hn, Nat.mod_eq_of_lt hn]
        rfl
      · have hn : ¬n < 10 := by omega
        have hrec : n / 10 < f := by
          have h1 : n / 10 < n := Nat.div_lt_self (by omega) (by norm_num)
          omega
        rw [if_neg h10,
          toDigitsCore_eq_digitsStr f (n / 10) (Nat.digitChar (n % 10) :: acc) hrec,
          digitsStr_eq_ge n hn, List.append_assoc]
        rfl

theorem natToString_eq_digitsStr (n : Nat) : toString n = (digitsStr n).asString := by
  show Nat.repr n = _
  unfold Nat.repr Nat.toDigits
  rw [toDigitsCore_eq_digitsStr (n + 1) n [] (Nat.lt_succ_self n), List.append_nil]

theorem digitChar_inj_lt : ∀ a < 10, ∀ b < 10, Nat.digitChar a = Nat.digitChar b → a = b := by
  decide

theorem digitsStr_length_pos (n : Nat) : 0 < (digitsStr n).length := by
  rw [digitsStr]
  split <;> simp

theorem digitsStr_inj : ∀ (m n : Nat), digitsStr m = digitsStr n → m = n
  | m, n, h => by
      by_cases hm : m < 10 <;> by_cases hn : n < 10
      · rw [digitsStr_eq_lt m hm, digitsStr_eq_lt n hn] at h
        exact digitChar_inj_lt m hm n hn (by injection h)
      · rw [digitsStr_eq_lt m hm, digitsStr_eq_ge n hn] at h
        have hlen := congrArg List.length h
        have hpos := digitsStr_length_pos (n / 10)
        rw [List.length_append, List.length_cons, List.length_cons] at hlen
        simp only [List.length_nil, List.length_cons] at hlen
        omega
      · rw [digitsStr_eq_ge m hm, digitsStr_eq_lt n hn] at h
        have hlen := congrArg List.length h
        have hpos := digitsStr_length_pos (m / 10)
        rw [List.length_append] at hlen
        simp only [List.length_nil, List.length_cons] at hlen
        omega
      · rw [digitsStr_eq_ge m hm, digitsStr_eq_ge n hn] at h
        obtain ⟨h1, h2⟩ := List.append_inj' h rfl
        have hmod : m % 10 = n % 10 :=
          digitChar_inj_lt (m % 10) (Nat.mod_lt m (by norm_num)) (n % 10)
            (Nat.mod_lt n (by norm_num)) (by injection h2)
        have hdiv : m / 10 = n / 10 := digitsStr_inj (m / 10) (n / 10) h1
        omega
  termination_by m => m
  decreasing_by exact Nat.div_lt_self (by omega) (by norm_num)

theorem natToString_inj {m n : Nat} (h : toString m = toString n) : m = n := by
  rw [natToString_eq_digitsStr, natToString_eq_digitsStr] at h
  exact digitsStr_inj m n (by simpa [List.asString] using congrArg String.data h)


/-! ### The restricted JSON grammar of the round-trip -/

/-- A scalar (non-container) JSON value. -/
def Json.isScalar : Json → Bool
  | .arr _ => false
  | .obj _ => false
  | _ => true

/-- Characters allowed in object keys for the round-trip (no path
separators). -/
def goodKeyChar (c : Char) : Bool := decide (c ≠ '.') && decide (c ≠ '[')

/-- A usable object key: nonempty, free of `.` and `[`. -/
def goodKey (k : String) : Bool := decide (k ≠ "") && k.data.all goodKeyChar

mutual
/-- Values built from objects and arrays of scalars, with reconstructible keys:
arrays hold only scalars, objects are nonempty with distinct good keys. -/
def nice : Json → Bool
  | .arr xs => xs.all Json.isScalar
  | .obj kvs => !kvs.isEmpty && decide ((dkeys kvs).Nodup) && niceList kvs
  | _ => true

def niceList : List (String × Json) → Bool
  | [] => true
  | (k, v) :: rest => goodKey k && nice v && niceList rest
end

/-! ### Path-key manipulation -/

/-- Attach a child path `sub` under the key `k` the way `flatten_json`
builds paths: nothing for a leaf, no separator before an index, a `.`
before an object field. -/
def extendKey (k sub : String) : String :=
  if sub = "" then k
  else if sub.data.head? = some '[' then k ++ sub
  else k ++ "." ++ sub

/-- The first field of a path key (characters before the first `.` or `[`). -/
def fieldOf (k : String) : String := String.mk (k.data.takeWhile goodKeyChar)

/-- The remainder of a path key after its first field (a leading `.` is
consumed, a leading `[` is kept). -/
def restOf (k : String) : String :=
  let r := k.data.dropWhile goodKeyChar
  if r.head? = some '.' then String.mk r.tail else String.mk r

theorem takeWhile_append_of_all {p : Char → Bool} :
    ∀ (l₁ l₂ : List Char), (∀ c ∈ l₁, p c = true) →
      (l₁ ++ l₂).takeWhile p = l₁ ++ l₂.takeWhile p
  | [], l₂, _ => rfl
  | c :: l₁, l₂, h => by
      have hc : p c = true := h c (by simp)
      simp only [List.cons_append, List.takeWhile_cons, hc, if_true]
      rw [takeWhile_append_of_all l₁ l₂ (fun c hc => h c (by simp [hc]))]

theorem dropWhile_append_of_all {p : Char → Bool} :
    ∀ (l₁ l₂ : List Char), (∀ c ∈ l₁, p c = true) →
      (l₁ ++ l₂).dropWhile p = l₂.dropWhile p
  | [], l₂, _ => rfl
  | c :: l₁, l₂, h => by
      have hc : p c = true := h c (by simp)
      simp only [List.cons_append, List.dropWhile_cons, hc, if_true]
      exact dropWhile_append_of_all l₁ l₂ (fun c hc => h c (by simp [hc]))

theorem mk_data_eq (s : String) : String.mk s.data = s := by cases s; rfl

theorem goodKey_data {k : String} (hk : goodKey k = true) :
    k.data ≠ [] ∧ ∀ c ∈ k.data, goodKeyChar c = true := by
  unfold goodKey at hk
  simp only [Bool.and_eq_true, decide_eq_true_eq, List.all_eq_true] at hk
  refine ⟨?_, hk.2⟩
  intro hnil
  exact hk.1 (String.ext hnil)

theorem fieldOf_extendKey (k sub : String) (hk : goodKey k = true) :
    fieldOf (extendKey k sub) = k := by
  obtain ⟨hne, hall⟩ := goodKey_data hk
  unfold extendKey fieldOf
  by_cases h0 : sub = ""
  · rw [if_pos h0]
    have : k.data.takeWhile goodKeyChar = k.data ++ [].takeWhile goodKeyChar := by
      conv_lhs => rw [show k.data = k.data ++ [] by simp]
      exact takeWhile_append_of_all k.data [] hall
    simp only [this, List.takeWhile_nil, List.append_nil]
  · rw [if_neg h0]
    by_cases h1 : sub.data.head? = some '['
    · rw [if_pos h1]
      obtain ⟨t, ht⟩ : ∃ t, sub.data = '[' :: t := by
        cases hs : sub.data with
        | nil => rw [hs] at h1; simp at h1
        | cons c t =>
            rw [hs] at h1
            simp only [List.head?_cons, Option.some.injEq] at h1
            exact ⟨t, by rw [h1]⟩
      rw [String.data_append, ht, takeWhile_append_of_all k.data _ hall]
      simp only [List.takeWhile_cons]
      norm_num [goodKeyChar]
    · rw [if_neg h1]
      rw [String.data_append, String.data_append]
      have hdot : ("." : String).data = ['.'] := rfl
      rw [hdot, List.append_assoc, takeWhile_append_of_all k.data _ hall]
      simp only [List.cons_append, List.takeWhile_cons]
      norm_num [goodKeyChar]

theorem restOf_extendKey (k sub : String) (hk : goodKey k = true) :
    restOf (extendKey k sub) = sub := by
  obtain ⟨hne, hall⟩ := goodKey_data hk
  unfold extendKey restOf
  by_cases h0 : sub = ""
  · rw [if_pos h0]
    have : k.data.dropWhile goodKeyChar = [].dropWhile goodKeyChar := by
      conv_lhs => rw [show k.data = k.data ++ [] by simp]
      exact dropWhile_append_of_all k.data [] hall
    simp only [this, List.dropWhile_nil]
    simp [h0]
  · rw [if_neg h0]
    by_cases h1 : sub.data.head? = some '['
    · rw [if_pos h1]
      obtain ⟨t, ht⟩ : ∃ t, sub.data = '[' :: t := by
        cases hs : sub.data with
        | nil => rw [hs] at h1; simp at h1
        | cons c t =>
            rw [hs] at h1
            simp only [List.head?_cons, Option.some.injEq] at h1
            exact ⟨t, by rw [h1]⟩
      rw [String.data_append, ht, dropWhile_append_of_all k.data _ hall]
      simp only [List.dropWhile_cons]
      norm_num [goodKeyChar]
      rw [if_neg (by decide : ¬('[' : Char) = '.')]
      rw [← ht]
    · rw [if_neg h1]
      rw [String.data_append, String.data_append]
      have hdot : ("." : String).data = ['.'] := rfl
      rw [hdot, List.append_assoc, dropWhile_append_of_all k.data _ hall]
      simp only [List.cons_append, List.dropWhile_cons]
      norm_num [goodKeyChar]

theorem extendKey_inj (k : String) (hk : goodKey k = true) {a b : String}
    (h : extendKey k a = extendKey k b) : a = b := by
  have := congrArg restOf h
  rwa [restOf_extendKey k a hk, restOf_extendKey k b hk] at this

theorem extendKey_field_ne {k k' : String} (hk : goodKey k = true) (hk' : goodKey k' = true)
    (hne : k ≠ k') (a b : String) : extendKey k a ≠ extendKey k' b := by
  intro h
  have := congrArg fieldOf h
  rw [fieldOf_extendKey k a hk, fieldOf_extendKey k' b hk'] at this
  exact hne this

theorem head?_append_of_ne_nil {l₁ l₂ : List Char} (h : l₁ ≠ []) :
    (l₁ ++ l₂).head? = l₁.head? := by
  cases l₁ with
  | nil => exact absurd rfl h
  | cons c t => rfl

theorem extendKey_head (k sub : String) (hk : goodKey k = true) :
    (extendKey k sub).data.head? = k.data.head? := by
  obtain ⟨hne, _⟩ := goodKey_data hk
  unfold extendKey
  by_cases h0 : sub = ""
  · rw [if_pos h0]
  · rw [if_neg h0]
    by_cases h1 : sub.data.head? = some '['
    · rw [if_pos h1, String.data_append, head?_append_of_ne_nil hne]
    · rw [if_neg h1, String.data_append, String.data_append,
        head?_append_of_ne_nil (by simp [hne] : k.data ++ ("." : String).data ≠ []),
        head?_append_of_ne_nil hne]

theorem goodKey_head {k : String} (hk : goodKey k = true) :
    ∃ c, k.data.head? = some c ∧ c ≠ '[' ∧ c ≠ '.' := by
  obtain ⟨hne, hall⟩ := goodKey_data hk
  cases hd : k.data with
  | nil => exact absurd hd hne
  | cons c t =>
      refine ⟨c, rfl, ?_, ?_⟩ <;>
      · have := hall c (by rw [hd]; simp)
        simp [goodKeyChar] at this
        tauto

/-! ### Upserts of fresh keys are appends -/

theorem dinsert_fresh {α β : Type _} [DecidableEq α] (k : α) (v : β) :
    ∀ t : List (α × β), k ∉ dkeys t → dinsert k v t = t ++ [(k, v)]
  | [], _ => rfl
  | (k', v') :: rest, h => by
      have hne : ¬k' = k := by
        intro he
        exact h (by simp [dkeys, he])
      simp only [dinsert, if_neg hne, List.cons_append, List.cons.injEq, true_and]
      exact dinsert_fresh k v rest (fun hm => h (by simp [dkeys] at hm ⊢; exact Or.inr hm))

theorem dupdate_append_of_fresh {α β : Type _} [DecidableEq α] :
    ∀ (e t : List (α × β)), (∀ k ∈ dkeys e, k ∉ dkeys t) → (dkeys e).Nodup →
      dupdate t e = t ++ e
  | [], t, _, _ => by simp [dupdate]
  | (k, v) :: e, t, hdisj, hnodup => by
      rw [dkeys_cons] at hnodup
      obtain ⟨hknotin, hrest⟩ := List.nodup_cons.mp hnodup
      show dupdate (dinsert k v t) e = _
      rw [dinsert_fresh k v t (hdisj k (by simp [dkeys]))]
      rw [dupdate_append_of_fresh e (t ++ [(k, v)]) ?_ hrest]
      · simp
      · intro k' hk'
        have h1 : k' ∉ dkeys t := hdisj k' (by simp [dkeys] at hk' ⊢; exact Or.inr hk')
        have h2 : k' ≠ k := by
          intro he
          exact hknotin (he ▸ hk')
        simp [dkeys] at h1 ⊢
        tauto

theorem dinsert_map {α β : Type _} [DecidableEq α] (g : α → α) (hg : Function.Injective g)
    (k : α) (v : β) :
    ∀ t : List (α × β),
      dinsert (g k) v (t.map (fun e => (g e.1, e.2))) =
        (dinsert k v t).map (fun e => (g e.1, e.2))
  | [] => rfl
  | (k', v') :: rest => by
      by_cases h : k' = k
      · subst h
        simp [dinsert]
      · have hg' : ¬g k' = g k := fun he => h (hg he)
        simp only [List.map_cons, dinsert, if_neg h, if_neg hg', List.cons.injEq, true_and]
        exact dinsert_map g hg k v rest

theorem dupdate_map {α β : Type _} [DecidableEq α] (g : α → α) (hg : Function.Injective g) :
    ∀ (e t : List (α × β)),
      dupdate (t.map (fun p => (g p.1, p.2))) (e.map (fun p => (g p.1, p.2))) =
        (dupdate t e).map (fun p => (g p.1, p.2))
  | [], t => rfl
  | (k, v) :: e, t => by
      show dupdate (dinsert (g k) v (t.map _)) (e.map _) = _
      rw [dinsert_map g hg k v t]
      exact dupdate_map g hg e (dinsert k v t)

/-! ### Arrays of scalars flatten to enumerated entries -/

/-- The flattened entries of an array of scalars starting at index `i`. -/
def arrEntriesFrom (pfx : String) : Nat → List Json → List (String × Json)
  | _, [] => []
  | i, x :: xs => (pfx ++ "[" ++ toString i ++ "]", x) :: arrEntriesFrom pfx (i + 1) xs

theorem arrKey_inj (pfx : String) {i j : Nat}
    (h : pfx ++ "[" ++ toString i ++ "]" = pfx ++ "[" ++ toString j ++ "]") : i = j := by
  have hd := congrArg String.data h
  simp only [String.data_append] at hd
  rw [List.append_assoc, List.append_assoc, List.append_assoc, List.append_assoc] at hd
  have h1 := List.append_cancel_left hd
  have h2 := List.append_cancel_left h1
  have h3 := List.append_cancel_right h2
  exact natToString_inj (String.ext h3)

theorem flatten_scalar (x : Json) (hx : x.isScalar = true) (k : String) :
    flatten_json x k = [(k, x)] := by
  cases x <;> first | rfl | simp [Json.isScalar] at hx

theorem flattenArr_scalars (pfx : String) :
    ∀ (xs : List Json) (i : Nat) (out : List (String × Json)),
      (∀ x ∈ xs, x.isScalar = true) →
      (∀ j, i ≤ j → (pfx ++ "[" ++ toString j ++ "]") ∉ dkeys out) →
      flattenArr xs pfx i out = out ++ arrEntriesFrom pfx i xs
  | [], i, out, _, _ => by simp [flattenArr, arrEntriesFrom]
  | x :: xs, i, out, hsc, hfresh => by
      show flattenArr xs pfx (i + 1)
          (dupdate out (flatten_json x (pfx ++ "[" ++ toString i ++ "]"))) = _
      rw [flatten_scalar x (hsc x (by simp)) _]
      have hstep : dupdate out [(pfx ++ "[" ++ toString i ++ "]", x)]
          = out ++ [(pfx ++ "[" ++ toString i ++ "]", x)] := by
        show dinsert _ _ out = _
        exact dinsert_fresh _ _ out (hfresh i (le_refl i))
      rw [hstep]
      rw [flattenArr_scalars pfx xs (i + 1) _ (fun y hy => hsc y (by simp [hy])) ?_]
      · simp [arrEntriesFrom]
      · intro j hj
        simp only [dkeys, List.map_append, List.map_cons, List.map_nil, List.mem_append,
          List.mem_singleton]
        rintro (hmem | heq)
        · exact hfresh j (by omega) hmem
        · exact absurd (arrKey_inj pfx heq) (by omega)

theorem empty_append_str (s : String) : "" ++ s = s := by
  apply String.ext
  simp

theorem arrEntriesFrom_map_ext (k : String) :
    ∀ (i : Nat) (xs : List Json),
      arrEntriesFrom k i xs =
        (arrEntriesFrom "" i xs).map (fun e => (extendKey k e.1, e.2))
  | i, [] => rfl
  | i, x :: xs => by
      simp only [arrEntriesFrom, List.map_cons, List.cons.injEq]
      constructor
      · have hsub : ("" : String) ++ "[" ++ toString i ++ "]"
            = "[" ++ toString i ++ "]" := by
          apply String.ext; simp
        rw [hsub]
        have hne : ("[" ++ toString i ++ "]" : String) ≠ "" := by
          intro h
          have := congrArg String.data h
          simp [String.data_append] at this
        have hhead : ("[" ++ toString i ++ "]" : String).data.head? = some '[' := by
          simp only [String.data_append]
          rfl
        unfold extendKey
        rw [if_neg hne, if_pos hhead]
        simp only [Prod.mk.injEq, and_true]
        apply String.ext
        simp [String.data_append]
      · exact arrEntriesFrom_map_ext k (i + 1) xs

theorem mem_dkeys_arrEntriesFrom (pfx : String) :
    ∀ (i : Nat) (xs : List Json) (k : String), k ∈ dkeys (arrEntriesFrom pfx i xs) →
      ∃ j, i ≤ j ∧ k = pfx ++ "[" ++ toString j ++ "]"
  | i, [], k, h => by simp [arrEntriesFrom, dkeys] at h
  | i, x :: xs, k, h => by
      simp only [arrEntriesFrom, dkeys, List.map_cons, List.mem_cons] at h
      rcases h with heq | hmem
      · exact ⟨i, le_refl i, heq⟩
      · obtain ⟨j, hj, hk⟩ := mem_dkeys_arrEntriesFrom pfx (i + 1) xs k hmem
        exact ⟨j, by omega, hk⟩

theorem arrEntriesFrom_nodup (pfx : String) :
    ∀ (i : Nat) (xs : List Json), (dkeys (arrEntriesFrom pfx i xs)).Nodup
  | i, [] => by simp [arrEntriesFrom, dkeys]
  | i, x :: xs => by
      simp only [arrEntriesFrom, dkeys, List.map_cons, List.nodup_cons]
      refine ⟨?_, arrEntriesFrom_nodup pfx (i + 1) xs⟩
      intro hmem
      obtain ⟨j, hj, hk⟩ := mem_dkeys_arrEntriesFrom pfx (i + 1) xs _ hmem
      exact absurd (arrKey_inj pfx hk) (by omega)

theorem arrEntriesFrom_snd (pfx : String) :
    ∀ (i : Nat) (xs : List Json), (arrEntriesFrom pfx i xs).map Prod.snd = xs
  | i, [] => rfl
  | i, x :: xs => by
      simp only [arrEntriesFrom, List.map_cons, List.cons.injEq, true_and]
      exact arrEntriesFrom_snd pfx (i + 1) xs

/-! ### Flattening under a longer prefix is a key-prepending map -/

theorem str_data_ne_nil {s : String} (h : s ≠ "") : s.data ≠ [] := by
  intro hd
  exact h (String.ext hd)

theorem strPrepend_inj (p : String) : Function.Injective (fun s : String => p ++ s) := by
  intro a b h
  apply String.ext
  have := congrArg String.data h
  simp only [String.data_append] at this
  exact List.append_cancel_left this

theorem append_ne_empty (p : String) {q : String} (h : q ≠ "") : p ++ q ≠ "" := by
  intro he
  have := congrArg String.data he
  simp only [String.data_append] at this
  exact str_data_ne_nil h (List.append_eq_nil.mp this).2

mutual
theorem flatten_prefix_map : ∀ (v : Json) (p q : String), q ≠ "" →
    flatten_json v (p ++ q) = (flatten_json v q).map (fun e => (p ++ e.1, e.2))
  | .null, p, q, h => rfl
  | .bool _, p, q, h => rfl
  | .num _, p, q, h => rfl
  | .str _, p, q, h => rfl
  | .arr xs, p, q, h => by
      show (let out := flattenArr xs (p ++ q) 0 []
            if p ++ q ≠ "" ∧ xs = [] then dinsert (p ++ q) (Json.arr []) out else out) = _
      show (if p ++ q ≠ "" ∧ xs = [] then dinsert (p ++ q) (Json.arr [])
              (flattenArr xs (p ++ q) 0 []) else flattenArr xs (p ++ q) 0 []) = _
      have hloop : flattenArr xs (p ++ q) 0 [] =
          (flattenArr xs q 0 []).map (fun e => (p ++ e.1, e.2)) := by
        have := flattenArr_prefix_map xs p q 0 [] h
        simpa using this
      by_cases hxs : xs = []
      · rw [if_pos ⟨append_ne_empty p h, hxs⟩]
        have : flatten_json (Json.arr xs) q =
            dinsert q (Json.arr []) (flattenArr xs q 0 []) := by
          show (let out := flattenArr xs q 0 []
                if q ≠ "" ∧ xs = [] then dinsert q (Json.arr []) out else out) = _
          simp [h, hxs]
        rw [this, hloop, dinsert_map _ (strPrepend_inj p) q (Json.arr [])]
      · rw [if_neg (by tauto)]
        have : flatten_json (Json.arr xs) q = flattenArr xs q 0 [] := by
          show (let out := flattenArr xs q 0 []
                if q ≠ "" ∧ xs = [] then dinsert q (Json.arr []) out else out) = _
          simp [hxs]
        rw [this, hloop]
  | .obj kvs, p, q, h => by
      show flattenObj kvs (p ++ q) [] = (flattenObj kvs q []).map (fun e => (p ++ e.1, e.2))
      have := flattenObj_prefix_map kvs p q [] h
      simpa using this

theorem flattenObj_prefix_map :
    ∀ (kvs : List (String × Json)) (p q : String) (out : List (String × Json)), q ≠ "" →
      flattenObj kvs (p ++ q) (out.map (fun e => (p ++ e.1, e.2))) =
        (flattenObj kvs q out).map (fun e => (p ++ e.1, e.2))
  | [], p, q, out, h => rfl
  | (k, v) :: rest, p, q, out, h => by
      show flattenObj rest (p ++ q)
          (dupdate (out.map _) (flatten_json v (if p ++ q = "" then k else p ++ q ++ "." ++ k)))
          = _
      have hpq : ¬p ++ q = "" := append_ne_empty p h
      rw [if_neg hpq]
      have hq' : q ++ "." ++ k ≠ "" := by
        intro he
        have := congrArg String.data he
        simp only [String.data_append, List.append_eq_nil] at this
        exact str_data_ne_nil h this.1.1
      have hkey : p ++ q ++ "." ++ k = p ++ (q ++ "." ++ k) := by
        simp [String.append_assoc]
      rw [hkey, flatten_prefix_map v p (q ++ "." ++ k) hq',
        dupdate_map _ (strPrepend_inj p) _ out,
        flattenObj_prefix_map rest p q (dupdate out (flatten_json v (q ++ "." ++ k))) h]
      show _ = (flattenObj rest q
        (dupdate out (flatten_json v (if q = "" then k else q ++ "." ++ k)))).map _
      rw [if_neg h]

theorem flattenArr_prefix_map :
    ∀ (xs : List Json) (p q : String) (i : Nat) (out : List (String × Json)), q ≠ "" →
      flattenArr xs (p ++ q) i (out.map (fun e => (p ++ e.1, e.2))) =
        (flattenArr xs q i out).map (fun e => (p ++ e.1, e.2))
  | [], p, q, i, out, h => rfl
  | x :: xs, p, q, i, out, h => by
      show flattenArr xs (p ++ q) (i + 1)
          (dupdate (out.map _) (flatten_json x (p ++ q ++ "[" ++ toString i ++ "]"))) = _
      have hq' : q ++ "[" ++ toString i ++ "]" ≠ "" := by
        intro he
        have := congrArg String.data he
        simp only [String.data_append, List.append_eq_nil] at this
        exact str_data_ne_nil h this.1.1.1
      have hkey : p ++ q ++ "[" ++ toString i ++ "]"
          = p ++ (q ++ "[" ++ toString i ++ "]") := by
        simp [String.append_assoc]
      rw [hkey, flatten_prefix_map x p _ hq',
        dupdate_map _ (strPrepend_inj p) _ out,
        flattenArr_prefix_map xs p q (i + 1) (dupdate out (flatten_json x (q ++ "[" ++ toString i ++ "]"))) h]
      rfl
end

/-! ### The canonical child-flat of a nice value -/

/-- The flat mapping of a value as seen from its parent: the key is the
path relative to the parent (so `""` for a leaf or an empty-array marker,
`[i]...` for array elements, a field path for object content). -/
def cflat : Json → List (String × Json)
  | .obj kvs => flatten_json (.obj kvs) ""
  | .arr [] => [("", Json.arr [])]
  | .arr xs => flatten_json (.arr xs) ""
  | v => [("", v)]

/-- The child-flats of an object's members, attached under their keys and
concatenated — the canonical form of `flatten_json (obj kvs) ""`. -/
def blocksJoin (kvs : List (String × Json)) : List (String × Json) :=
  (kvs.map (fun p => (cflat p.2).map (fun e => (extendKey p.1 e.1, e.2)))).join

theorem blocksJoin_cons (k : String) (v : Json) (rest : List (String × Json)) :
    blocksJoin ((k, v) :: rest)
      = (cflat v).map (fun e => (extendKey k e.1, e.2)) ++ blocksJoin rest := rfl

theorem dkeys_map_ext {β : Type _} (g : String → String) (l : List (String × β)) :
    dkeys (l.map (fun e => (g e.1, e.2))) = (dkeys l).map g := by
  simp [dkeys, List.map_map]

theorem dkeys_append {α β : Type _} (a b : List (α × β)) :
    dkeys (a ++ b) = dkeys a ++ dkeys b := by
  simp [dkeys]

theorem extendKey_injective (k : String) (hk : goodKey k = true) :
    Function.Injective (extendKey k) := fun a b h => extendKey_inj k hk h

theorem extendKey_ne_empty (k sub : String) (hk : goodKey k = true) :
    extendKey k sub ≠ "" := by
  obtain ⟨c, hc, _, _⟩ := goodKey_head hk
  intro he
  have := extendKey_head k sub hk
  rw [he, hc] at this
  simp at this

theorem extendKey_head_not_bracket (k sub : String) (hk : goodKey k = true) :
    (extendKey k sub).data.head? ≠ some '[' := by
  obtain ⟨c, hc, hcb, _⟩ := goodKey_head hk
  rw [extendKey_head k sub hk, hc]
  simp [hcb]

/-- Flattening an object under a non-root prefix `k` prepends `k ++ "."` to
the keys of the root flattening. -/
theorem flattenObj_root_map :
    ∀ (kvs : List (String × Json)) (k : String) (out : List (String × Json)),
      k ≠ "" → (∀ p ∈ kvs, p.1 ≠ "") →
      flattenObj kvs k (out.map (fun e => (k ++ "." ++ e.1, e.2))) =
        (flattenObj kvs "" out).map (fun e => (k ++ "." ++ e.1, e.2))
  | [], k, out, _, _ => rfl
  | (k0, v) :: rest, k, out, hk, hkeys => by
      show flattenObj rest k
          (dupdate (out.map _) (flatten_json v (if k = "" then k0 else k ++ "." ++ k0))) = _
      rw [if_neg hk]
      have hmap : flatten_json v (k ++ "." ++ k0)
          = (flatten_json v k0).map (fun e => (k ++ "." ++ e.1, e.2)) :=
        flatten_prefix_map v (k ++ ".") k0 (hkeys (k0, v) (by simp))
      rw [hmap, dupdate_map _ (strPrepend_inj (k ++ ".")) _ out,
        flattenObj_root_map rest k (dupdate out (flatten_json v k0)) hk
          (fun p hp => hkeys p (by simp [hp]))]
      rfl

theorem flatten_arr_def (xs : List Json) (pfx : String) :
    flatten_json (Json.arr xs) pfx =
      if pfx ≠ "" ∧ xs = [] then dinsert pfx (Json.arr []) (flattenArr xs pfx 0 [])
      else flattenArr xs pfx 0 [] := rfl

theorem flatten_obj_def (kvs : List (String × Json)) (pfx : String) :
    flatten_json (Json.obj kvs) pfx = flattenObj kvs pfx [] := rfl

theorem goodKey_ne_empty {k : String} (hk : goodKey k = true) : k ≠ "" := by
  intro he
  exact (goodKey_data hk).1 (by rw [he])

theorem nice_obj_parts {kvs : List (String × Json)} (h : nice (Json.obj kvs) = true) :
    kvs ≠ [] ∧ (dkeys kvs).Nodup ∧ niceList kvs = true := by
  unfold nice at h
  simp only [Bool.and_eq_true, Bool.not_eq_true', decide_eq_true_eq] at h
  obtain ⟨⟨h1, h2⟩, h3⟩ := h
  exact ⟨by simpa using h1, h2, h3⟩

theorem niceList_cons {k : String} {v : Json} {rest : List (String × Json)}
    (h : niceList ((k, v) :: rest) = true) :
    goodKey k = true ∧ nice v = true ∧ niceList rest = true := by
  unfold niceList at h
  simp only [Bool.and_eq_true] at h
  exact ⟨h.1.1, h.1.2, h.2⟩

theorem niceList_mem : ∀ {kvs : List (String × Json)}, niceList kvs = true →
    ∀ p ∈ kvs, goodKey p.1 = true ∧ nice p.2 = true
  | [], _, p, hp => absurd hp (List.not_mem_nil p)
  | (k, v) :: rest, h, p, hp => by
      obtain ⟨h1, h2, h3⟩ := niceList_cons h
      rcases List.mem_cons.mp hp with rfl | hmem
      · exact ⟨h1, h2⟩
      · exact niceList_mem h3 p hmem

mutual
theorem cflat_spec : ∀ (v : Json), nice v = true →
    (∀ k, goodKey k = true →
      flatten_json v k = (cflat v).map (fun e => (extendKey k e.1, e.2)))
    ∧ (dkeys (cflat v)).Nodup
    ∧ cflat v ≠ []
  | .null, _ => by
      refine ⟨fun k hk => ?_, by simp [cflat, dkeys], by simp [cflat]⟩
      simp [cflat, flatten_json, extendKey]
  | .bool b, _ => by
      refine ⟨fun k hk => ?_, by simp [cflat, dkeys], by simp [cflat]⟩
      simp [cflat, flatten_json, extendKey]
  | .num q, _ => by
      refine ⟨fun k hk => ?_, by simp [cflat, dkeys], by simp [cflat]⟩
      simp [cflat, flatten_json, extendKey]
  | .str s, _ => by
      refine ⟨fun k hk => ?_, by simp [cflat, dkeys], by simp [cflat]⟩
      simp [cflat, flatten_json, extendKey]
  | .arr [], _ => by
      refine ⟨fun k hk => ?_, by simp [cflat, dkeys], by simp [cflat]⟩
      have hkne : k ≠ "" := goodKey_ne_empty hk
      rw [flatten_arr_def, if_pos ⟨hkne, rfl⟩]
      simp [flattenArr, dinsert, cflat, extendKey]
  | .arr (x :: xs), h => by
      have hsc : ∀ y ∈ x :: xs, y.isScalar = true := by
        have h' : (x :: xs).all Json.isScalar = true := h
        exact fun y hy => List.all_eq_true.mp h' y hy
      have hc : cflat (Json.arr (x :: xs)) = arrEntriesFrom "" 0 (x :: xs) := by
        show flatten_json (Json.arr (x :: xs)) "" = _
        rw [flatten_arr_def, if_neg (by simp)]
        exact flattenArr_scalars "" (x :: xs) 0 [] hsc (by simp [dkeys])
      refine ⟨?_, ?_, ?_⟩
      · intro k hk
        have h1 : flatten_json (Json.arr (x :: xs)) k = arrEntriesFrom k 0 (x :: xs) := by
          rw [flatten_arr_def, if_neg (by simp)]
          exact flattenArr_scalars k (x :: xs) 0 [] hsc (by simp [dkeys])
        rw [h1, hc, arrEntriesFrom_map_ext]
      · rw [hc]; exact arrEntriesFrom_nodup "" 0 _
      · rw [hc]; simp [arrEntriesFrom]
  | .obj kvs, h => by
      obtain ⟨hne, hnodup, hniceL⟩ := nice_obj_parts h
      obtain ⟨hQ1, hQ2, hQ3, hQ4⟩ := cflatList_spec kvs hniceL hnodup
      have hjoin : cflat (Json.obj kvs) = blocksJoin kvs := by
        show flatten_json (Json.obj kvs) "" = _
        rw [flatten_obj_def]
        have := (hQ1 [] (by simp [dkeys]) (by simp [dkeys])).1
        simpa using this
      refine ⟨?_, ?_, ?_⟩
      · intro k hk
        have hkne : k ≠ "" := goodKey_ne_empty hk
        have hkeys : ∀ p ∈ kvs, p.1 ≠ "" :=
          fun p hp => goodKey_ne_empty (niceList_mem hniceL p hp).1
        have hroot : flattenObj kvs k [] =
            (flattenObj kvs "" []).map (fun e => (k ++ "." ++ e.1, e.2)) := by
          have := flattenObj_root_map kvs k [] hkne hkeys
          simpa using this
        rw [flatten_obj_def kvs k, hroot,
          show flattenObj kvs "" [] = cflat (Json.obj kvs) from rfl, hjoin]
        apply List.map_congr_left
        intro e he
        have hmem : e.1 ∈ dkeys (blocksJoin kvs) := by
          simp only [dkeys]
          exact List.mem_map_of_mem Prod.fst he
        obtain ⟨hene, hhead⟩ := hQ4 e.1 hmem
        simp [extendKey, hene, hhead]
      · rw [hjoin]
        have := (hQ1 [] (by simp [dkeys]) (by simp [dkeys])).2
        simpa using this
      · rw [hjoin]
        exact hQ3 hne

theorem cflatList_spec : ∀ (kvs : List (String × Json)), niceList kvs = true →
    (dkeys kvs).Nodup →
    (∀ out : List (String × Json), (dkeys out).Nodup →
      (∀ key ∈ dkeys out, fieldOf key ∉ dkeys kvs) →
      flattenObj kvs "" out = out ++ blocksJoin kvs
        ∧ (dkeys (out ++ blocksJoin kvs)).Nodup)
    ∧ (∀ key ∈ dkeys (blocksJoin kvs), fieldOf key ∈ dkeys kvs)
    ∧ (kvs ≠ [] → blocksJoin kvs ≠ [])
    ∧ (∀ key ∈ dkeys (blocksJoin kvs), key ≠ "" ∧ key.data.head? ≠ some '[')
  | [], _, _ => by
      refine ⟨?_, ?_, ?_, ?_⟩
      · intro out hnd _
        exact ⟨by simp [flattenObj, blocksJoin], by simpa [blocksJoin] using hnd⟩
      · intro key hkey; simp [blocksJoin, dkeys] at hkey
      · intro hne; exact absurd rfl hne
      · intro key hkey; simp [blocksJoin, dkeys] at hkey
  | (k, v) :: rest, hniceL, hnodup => by
      obtain ⟨hgk, hnv, hnrest⟩ := niceList_cons hniceL
      rw [dkeys_cons] at hnodup
      obtain ⟨hknotin, hnodrest⟩ := List.nodup_cons.mp hnodup
      obtain ⟨hP1, hP2, hP3⟩ := cflat_spec v hnv
      obtain ⟨hQ1, hQ2, hQ3, hQ4⟩ := cflatList_spec rest hnrest hnodrest
      have hblkkeys : dkeys ((cflat v).map (fun e => (extendKey k e.1, e.2)))
          = (dkeys (cflat v)).map (extendKey k) := dkeys_map_ext _ _
      have hblknodup : (dkeys ((cflat v).map (fun e => (extendKey k e.1, e.2)))).Nodup := by
        rw [hblkkeys]
        exact hP2.map (extendKey_injective k hgk)
      have hblkfield : ∀ key ∈ dkeys ((cflat v).map (fun e => (extendKey k e.1, e.2))),
          fieldOf key = k := by
        intro key hkey
        rw [hblkkeys] at hkey
        obtain ⟨sub, _, rfl⟩ := List.mem_map.mp hkey
        exact fieldOf_extendKey k sub hgk
      refine ⟨?_, ?_, ?_, ?_⟩
      · intro out hnd hfld
        have hdisj : ∀ key ∈ dkeys ((cflat v).map (fun e => (extendKey k e.1, e.2))),
            key ∉ dkeys out := by
          intro key hkey hmem
          have h1 := hblkfield key hkey
          exact hfld key hmem (by rw [h1, dkeys_cons]; simp)
        have hstep : dupdate out ((cflat v).map (fun e => (extendKey k e.1, e.2)))
            = out ++ (cflat v).map (fun e => (extendKey k e.1, e.2)) :=
          dupdate_append_of_fresh _ out hdisj hblknodup
        have hnd' : (dkeys (out ++ (cflat v).map (fun e => (extendKey k e.1, e.2)))).Nodup := by
          rw [dkeys_append]
          refine List.Nodup.append hnd hblknodup ?_
          intro a ha hb
          have h1 := hblkfield a hb
          exact hfld a ha (by rw [h1, dkeys_cons]; simp)
        have hfld' : ∀ key ∈ dkeys (out ++ (cflat v).map (fun e => (extendKey k e.1, e.2))),
            fieldOf key ∉ dkeys rest := by
          intro key hkey
          rw [dkeys_append] at hkey
          rcases List.mem_append.mp hkey with hmem | hmem
          · intro hc
            exact hfld key hmem (by rw [dkeys_cons]; simp [hc])
          · rw [hblkfield key hmem]
            exact hknotin
        have hrec := hQ1 (out ++ (cflat v).map (fun e => (extendKey k e.1, e.2))) hnd' hfld'
        obtain ⟨hreceq, hrecnd⟩ := hrec
        constructor
        · show flattenObj rest ""
              (dupdate out (flatten_json v (if ("" : String) = "" then k else "" ++ "." ++ k)))
              = _
          rw [if_pos rfl, hP1 k hgk, hstep, hreceq, blocksJoin_cons, List.append_assoc]
        · rw [blocksJoin_cons, ← List.append_assoc]
          exact hrecnd
      · intro key hkey
        rw [blocksJoin_cons, dkeys_append] at hkey
        rw [dkeys_cons]
        rcases List.mem_append.mp hkey with hmem | hmem
        · rw [hblkfield key hmem]; simp
        · exact List.mem_cons_of_mem k (hQ2 key hmem)
      · intro _
        rw [blocksJoin_cons]
        intro hc
        obtain ⟨h1, _⟩ := List.append_eq_nil.mp hc
        exact hP3 (List.map_eq_nil.mp h1)
      · intro key hkey
        rw [blocksJoin_cons, dkeys_append] at hkey
        rcases List.mem_append.mp hkey with hmem | hmem
        · rw [hblkkeys] at hmem
          obtain ⟨sub, _, rfl⟩ := List.mem_map.mp hmem
          exact ⟨extendKey_ne_empty k sub hgk, extendKey_head_not_bracket k sub hgk⟩
        · exact hQ4 key hmem
end

/-- The `cflat` view of a nice object: the concatenation of its members'
attached child-flats. -/
theorem cflat_obj_eq (kvs : List (String × Json)) (h : nice (Json.obj kvs) = true) :
    cflat (Json.obj kvs) = blocksJoin kvs := by
  obtain ⟨hne, hnodup, hniceL⟩ := nice_obj_parts h
  obtain ⟨hQ1, _, _, _⟩ := cflatList_spec kvs hniceL hnodup
  show flatten_json (Json.obj kvs) "" = _
  rw [flatten_obj_def]
  have := (hQ1 [] (by simp [dkeys]) (by simp [dkeys])).1
  simpa using this

/-! ### Reconstruction from the path-keyed mapping -/

/-- First-occurrence deduplication (used to recover an object's key order
from the flat mapping). -/
def firstDedup : List String → List String
  | [] => []
  | x :: xs => x :: firstDedup (xs.filter (fun y => decide (y ≠ x)))
  termination_by l => l.length
  decreasing_by exact Nat.lt_succ_of_le (List.length_filter_le _ _)

/-- The sub-mapping of the child at field `f`: entries whose first field is
`f`, with that field stripped from the key. -/
def childFlatFor (f : String) (flat : List (String × Json)) : List (String × Json) :=
  flat.filterMap fun p => if fieldOf p.1 = f then some (restOf p.1, p.2) else none

/-- Modelled from the spec: "reconstructing a value from the path-keyed
mapping produced by flatten_json" — the repository contains no
reconstruction function, so this is the spec's reconstruction, defined by
descending through the path keys (fuel-indexed; the fuel is one more than
any nesting depth the keys can encode). A single entry at the empty path is
the value itself; keys that all start with `[` rebuild an array; otherwise
the fields in first-appearance order rebuild an object. -/
def unflattenF : Nat → List (String × Json) → Json
  | 0, _ => Json.null
  | _ + 1, [] => Json.obj []
  | fuel + 1, (k, v) :: rest =>
      if k = "" ∧ rest = [] then v
      else if ((k, v) :: rest).all (fun p => decide (p.1.data.head? = some '[')) then
        Json.arr (((k, v) :: rest).map Prod.snd)
      else
        Json.obj ((firstDedup (((k, v) :: rest).map fun p => fieldOf p.1)).map
          fun f => (f, unflattenF fuel (childFlatFor f ((k, v) :: rest))))

/-- The longest key length of a flat mapping. -/
def maxKL (flat : List (String × Json)) : Nat :=
  (flat.map (fun p => p.1.length)).foldr max 0

/-- Modelled from the spec: the reconstruction function of the round-trip
property. -/
def unflatten (flat : List (String × Json)) : Json := unflattenF (maxKL flat + 2) flat

mutual
/-- Nesting depth bound used to justify the fuel. -/
def ndepth : Json → Nat
  | .obj kvs => 1 + ndepthList kvs
  | _ => 1

def ndepthList : List (String × Json) → Nat
  | [] => 0
  | (_, v) :: rest => max (ndepth v) (ndepthList rest)
end

theorem ndepth_pos (v : Json) : 1 ≤ ndepth v := by
  cases v <;> simp [ndepth]

theorem ndepthList_mem_le : ∀ (kvs : List (String × Json)) (p : String × Json), p ∈ kvs →
    ndepth p.2 ≤ ndepthList kvs
  | (k, v) :: rest, p, hp => by
      rcases List.mem_cons.mp hp with rfl | hmem
      · simp [ndepthList]
      · have := ndepthList_mem_le rest p hmem
        simp only [ndepthList]
        omega

theorem ndepthList_le : ∀ (kvs : List (String × Json)) (B : Nat),
    (∀ p ∈ kvs, ndepth p.2 ≤ B) → ndepthList kvs ≤ B
  | [], B, _ => by simp [ndepthList]
  | (k, v) :: rest, B, h => by
      have h1 : ndepth v ≤ B := h (k, v) (by simp)
      have h2 := ndepthList_le rest B (fun p hp => h p (by simp [hp]))
      simp only [ndepthList]
      omega

/-! ### Recovering the fields and the children from a join of blocks -/

theorem firstDedup_cons (x : String) (xs : List String) :
    firstDedup (x :: xs) = x :: firstDedup (xs.filter (fun y => decide (y ≠ x))) := by
  rw [firstDedup]

theorem filter_ne_nil_of_all_eq (a : String) :
    ∀ (t : List String), (∀ x ∈ t, x = a) → t.filter (fun y => decide (y ≠ a)) = []
  | [], _ => rfl
  | x :: t, h => by
      have hx : x = a := h x (by simp)
      rw [List.filter_cons, if_neg (by simp [hx])]
      exact filter_ne_nil_of_all_eq a t (fun y hy => h y (by simp [hy]))

theorem filter_ne_self_of_not_mem (a : String) :
    ∀ (t : List String), (∀ x ∈ t, x ≠ a) → t.filter (fun y => decide (y ≠ a)) = t
  | [], _ => rfl
  | x :: t, h => by
      have hx : x ≠ a := h x (by simp)
      rw [List.filter_cons, if_pos (by simp [hx])]
      rw [filter_ne_self_of_not_mem a t (fun y hy => h y (by simp [hy]))]

/-- Every field of a block join is one of the block keys. -/
theorem mem_blocks_fields : ∀ (kvs : List (String × Json)),
    (∀ p ∈ kvs, goodKey p.1 = true) →
    ∀ x ∈ (blocksJoin kvs).map (fun p => fieldOf p.1), x ∈ dkeys kvs
  | [], _, x, hx => by simp [blocksJoin] at hx
  | (k, v) :: rest, hgood, x, hx => by
      rw [blocksJoin_cons, List.map_append] at hx
      rw [dkeys_cons]
      rcases List.mem_append.mp hx with hmem | hmem
      · rw [List.map_map] at hmem
        obtain ⟨e, _, he⟩ := List.mem_map.mp hmem
        have hxk : x = k := by
          rw [← he]
          exact fieldOf_extendKey k e.1 (hgood (k, v) (by simp))
        rw [hxk]
        exact List.mem_cons_self k _
      · exact List.mem_cons_of_mem k
          (mem_blocks_fields rest (fun p hp => hgood p (by simp [hp])) x hmem)

/-- The first-appearance fields of a block join are exactly the object's
keys, in order. -/
theorem firstDedup_fields : ∀ (kvs : List (String × Json)),
    (∀ p ∈ kvs, goodKey p.1 = true ∧ cflat p.2 ≠ []) → (dkeys kvs).Nodup →
    firstDedup ((blocksJoin kvs).map (fun p => fieldOf p.1)) = dkeys kvs
  | [], _, _ => by simp [blocksJoin, dkeys, firstDedup]
  | (k, v) :: rest, hkv, hnodup => by
      rw [dkeys_cons] at hnodup
      obtain ⟨hknotin, hnodrest⟩ := List.nodup_cons.mp hnodup
      obtain ⟨hgk, hcne⟩ := hkv (k, v) (by simp)
      rw [blocksJoin_cons, List.map_append, List.map_map]
      have hfields : ((cflat v).map ((fun p => fieldOf p.1) ∘ fun e => (extendKey k e.1, e.2)))
          = (cflat v).map (fun _ => k) := by
        apply List.map_congr_left
        intro e _
        exact fieldOf_extendKey k e.1 hgk
      rw [hfields]
      obtain ⟨e0, es, hes⟩ : ∃ e0 es, cflat v = e0 :: es := by
        cases hc : cflat v with
        | nil => exact absurd hc hcne
        | cons e0 es => exact ⟨e0, es, rfl⟩
      rw [hes]
      simp only [List.map_cons, List.cons_append]
      rw [firstDedup_cons, dkeys_cons]
      congr 1
      rw [List.filter_append,
        filter_ne_nil_of_all_eq k (es.map fun _ => k) (by simp),
        filter_ne_self_of_not_mem k ((blocksJoin rest).map fun p => fieldOf p.1) ?_,
        List.nil_append]
      · exact firstDedup_fields rest (fun p hp => hkv p (by simp [hp])) hnodrest
      · intro x hx hxk
        have := mem_blocks_fields rest (fun p hp => (hkv p (by simp [hp])).1) x hx
        exact hknotin (hxk ▸ this)

theorem childFlatFor_append (f : String) (a b : List (String × Json)) :
    childFlatFor f (a ++ b) = childFlatFor f a ++ childFlatFor f b := by
  simp [childFlatFor, List.filterMap_append]

theorem childFlatFor_block_eq (k0 : String) (hk0 : goodKey k0 = true) :
    ∀ (l : List (String × Json)),
      childFlatFor k0 (l.map (fun e => (extendKey k0 e.1, e.2))) = l
  | [] => rfl
  | e :: l => by
      simp only [List.map_cons, childFlatFor, List.filterMap_cons]
      rw [if_pos (fieldOf_extendKey k0 e.1 hk0), restOf_extendKey k0 e.1 hk0]
      show (e.1, e.2) :: childFlatFor k0 (l.map _) = e :: l
      rw [childFlatFor_block_eq k0 hk0 l]

theorem childFlatFor_block_ne (k k0 : String) (hk0 : goodKey k0 = true) (hne : k0 ≠ k) :
    ∀ (l : List (String × Json)),
      childFlatFor k (l.map (fun e => (extendKey k0 e.1, e.2))) = []
  | [] => rfl
  | e :: l => by
      simp only [List.map_cons, childFlatFor, List.filterMap_cons]
      rw [if_neg (by rw [fieldOf_extendKey k0 e.1 hk0]; exact hne)]
      exact childFlatFor_block_ne k k0 hk0 hne l

theorem childFlatFor_none (k : String) :
    ∀ (l : List (String × Json)), (∀ p ∈ l, fieldOf p.1 ≠ k) → childFlatFor k l = []
  | [], _ => rfl
  | p :: l, h => by
      simp only [childFlatFor, List.filterMap_cons]
      rw [if_neg (h p (by simp))]
      exact childFlatFor_none k l (fun q hq => h q (by simp [hq]))

/-- In a join of blocks with distinct good fields, the child flat at field
`k` is exactly that member's `cflat`. -/
theorem childFlatFor_blocks : ∀ (kvs : List (String × Json)),
    (∀ p ∈ kvs, goodKey p.1 = true) → (dkeys kvs).Nodup →
    ∀ k v, (k, v) ∈ kvs → childFlatFor k (blocksJoin kvs) = cflat v
  | [], _, _, k, v, hm => absurd hm (List.not_mem_nil _)
  | (k0, v0) :: rest, hgood, hnodup, k, v, hm => by
      rw [dkeys_cons] at hnodup
      obtain ⟨hknotin, hnodrest⟩ := List.nodup_cons.mp hnodup
      have hgk0 : goodKey k0 = true := (hgood (k0, v0) (by simp))
      rw [blocksJoin_cons, childFlatFor_append]
      rcases List.mem_cons.mp hm with heq | hmem
      · obtain ⟨rfl, rfl⟩ := Prod.mk.injEq .. |>.mp heq
        rw [childFlatFor_block_eq k hgk0]
        rw [childFlatFor_none k (blocksJoin rest) ?_, List.append_nil]
        intro p hp hpk
        have := mem_blocks_fields rest (fun q hq => hgood q (by simp [hq]))
          (fieldOf p.1) (List.mem_map_of_mem _ hp)
        exact hknotin (hpk ▸ this)
      · have hkmem : k ∈ dkeys rest := by
          simp only [dkeys]
          exact List.mem_map_of_mem Prod.fst hmem
        have hne : k0 ≠ k := fun he => hknotin (he ▸ hkmem)
        rw [childFlatFor_block_ne k k0 hgk0 hne, List.nil_append]
        exact childFlatFor_blocks rest (fun q hq => hgood q (by simp [hq])) hnodrest k v hmem

/-! ### The reconstruction inverts `cflat` -/

theorem arrKeyRoot_ne (j : Nat) : ("" ++ "[" ++ toString j ++ "]" : String) ≠ "" := by
  intro he
  have := congrArg String.data he
  simp [String.data_append] at this

theorem arrKeyRoot_head (j : Nat) :
    ("" ++ "[" ++ toString j ++ "]" : String).data.head? = some '[' := by
  simp only [String.data_append]
  rfl

theorem unflattenF_cflat : ∀ (fuel : Nat) (v : Json), nice v = true → ndepth v ≤ fuel →
    unflattenF fuel (cflat v) = v
  | 0, v, _, hd => by
      have := ndepth_pos v
      omega
  | _ + 1, .null, _, _ => rfl
  | _ + 1, .bool _, _, _ => rfl
  | _ + 1, .num _, _, _ => rfl
  | _ + 1, .str _, _, _ => rfl
  | _ + 1, .arr [], _, _ => rfl
  | fuel + 1, .arr (x :: xs), h, _ => by
      have hsc : ∀ y ∈ x :: xs, y.isScalar = true :=
        fun y hy => List.all_eq_true.mp h y hy
      have hc : cflat (Json.arr (x :: xs)) = arrEntriesFrom "" 0 (x :: xs) := by
        show flatten_json (Json.arr (x :: xs)) "" = _
        rw [flatten_arr_def, if_neg (by simp)]
        exact flattenArr_scalars "" (x :: xs) 0 [] hsc (by simp [dkeys])
      have hconsEq : arrEntriesFrom "" 0 (x :: xs)
          = ("" ++ "[" ++ toString 0 ++ "]", x) :: arrEntriesFrom "" 1 xs := rfl
      have hall : (("" ++ "[" ++ toString 0 ++ "]", x) :: arrEntriesFrom "" 1 xs).all
          (fun p => decide (p.1.data.head? = some '[')) = true := by
        apply List.all_eq_true.mpr
        intro p hp
        rcases List.mem_cons.mp hp with rfl | hmem
        · simp [arrKeyRoot_head 0]
        · have hkmem : p.1 ∈ dkeys (arrEntriesFrom "" 1 xs) := by
            simp only [dkeys]
            exact List.mem_map_of_mem Prod.fst hmem
          obtain ⟨j, _, hj⟩ := mem_dkeys_arrEntriesFrom "" 1 xs p.1 hkmem
          simp [hj, arrKeyRoot_head j]
      rw [hc, hconsEq]
      simp only [unflattenF]
      rw [if_neg (fun hcond => arrKeyRoot_ne 0 hcond.1), if_pos hall]
      rw [← hconsEq, arrEntriesFrom_snd "" 0 (x :: xs)]
  | fuel + 1, .obj kvs, h, hd => by
      obtain ⟨hne, hnodup, hniceL⟩ := nice_obj_parts h
      have hjoin := cflat_obj_eq kvs h
      have hgoodall : ∀ p ∈ kvs, goodKey p.1 = true :=
        fun p hp => (niceList_mem hniceL p hp).1
      have hniceall : ∀ p ∈ kvs, nice p.2 = true :=
        fun p hp => (niceList_mem hniceL p hp).2
      have hcne : ∀ p ∈ kvs, cflat p.2 ≠ [] :=
        fun p hp => (cflat_spec p.2 (hniceall p hp)).2.2
      have hQ4 := (cflatList_spec kvs hniceL hnodup).2.2.2
      have hjne : blocksJoin kvs ≠ [] := (cflatList_spec kvs hniceL hnodup).2.2.1 hne
      obtain ⟨e0, rest0, hflat⟩ : ∃ e0 rest0, blocksJoin kvs = e0 :: rest0 := by
        cases hbj : blocksJoin kvs with
        | nil => exact absurd hbj hjne
        | cons e0 rest0 => exact ⟨e0, rest0, rfl⟩
      obtain ⟨k0, v0⟩ := e0
      have he0mem : k0 ∈ dkeys (blocksJoin kvs) := by
        rw [hflat, dkeys_cons]
        simp
      obtain ⟨he0ne, he0head⟩ := hQ4 k0 he0mem
      rw [hjoin, hflat]
      simp only [unflattenF]
      rw [if_neg (fun hcond => he0ne hcond.1)]
      rw [if_neg ?harr]
      case harr =>
        intro hall
        have := List.all_eq_true.mp hall (k0, v0) (by simp)
        simp only [decide_eq_true_eq] at this
        exact he0head this
      rw [← hflat,
        firstDedup_fields kvs (fun p hp => ⟨hgoodall p hp, hcne p hp⟩) hnodup]
      congr 1
      show (kvs.map Prod.fst).map
          (fun f => (f, unflattenF fuel (childFlatFor f (blocksJoin kvs)))) = kvs
      rw [List.map_map]
      have hpt : ∀ p ∈ kvs,
          ((fun f => (f, unflattenF fuel (childFlatFor f (blocksJoin kvs)))) ∘ Prod.fst) p
            = id p := by
        intro p hp
        obtain ⟨k1, v1⟩ := p
        show (k1, unflattenF fuel (childFlatFor k1 (blocksJoin kvs))) = (k1, v1)
        rw [childFlatFor_blocks kvs hgoodall hnodup k1 v1 hp]
        rw [unflattenF_cflat fuel v1 (hniceall (k1, v1) hp) ?_]
        have h1 : ndepth v1 ≤ ndepthList kvs := ndepthList_mem_le kvs (k1, v1) hp
        have h2 : ndepth (Json.obj kvs) = 1 + ndepthList kvs := rfl
        omega
      rw [List.map_congr_left hpt, List.map_id]
  termination_by fuel _ => fuel

theorem flatten_root_eq_cflat : ∀ (v : Json), v ≠ Json.arr [] →
    flatten_json v "" = cflat v
  | .null, _ => rfl
  | .bool _, _ => rfl
  | .num _, _ => rfl
  | .str _, _ => rfl
  | .arr [], hv => absurd rfl hv
  | .arr (_ :: _), _ => rfl
  | .obj _, _ => rfl

/-! ### Fuel bound: the longest key dominates the nesting depth -/

theorem maxKL_mem_le : ∀ (flat : List (String × Json)), ∀ e ∈ flat, e.1.length ≤ maxKL flat
  | [], e, he => absurd he (List.not_mem_nil e)
  | f :: rest, e, he => by
      rcases List.mem_cons.mp he with rfl | hmem
      · simp only [maxKL, List.map_cons, List.foldr_cons]
        omega
      · have := maxKL_mem_le rest e hmem
        simp only [maxKL, List.map_cons, List.foldr_cons] at this ⊢
        omega

theorem maxKL_attained : ∀ (flat : List (String × Json)), flat ≠ [] →
    ∃ e ∈ flat, maxKL flat = e.1.length
  | [], h => absurd rfl h
  | f :: rest, _ => by
      have hfold : maxKL (f :: rest) = max f.1.length (maxKL rest) := rfl
      by_cases hrest : rest = []
      · subst hrest
        exact ⟨f, by simp, by simp [maxKL]⟩
      · obtain ⟨e, hemem, heq⟩ := maxKL_attained rest hrest
        rcases le_total (maxKL rest) f.1.length with hle | hle
        · exact ⟨f, by simp, by rw [hfold, Nat.max_eq_left hle]⟩
        · exact ⟨e, by simp [hemem], by rw [hfold, Nat.max_eq_right hle, heq]⟩

theorem extendKey_length_ge (k sub : String) (hk : goodKey k = true) :
    1 + sub.length ≤ (extendKey k sub).length := by
  have hkpos : 1 ≤ k.length := by
    have := (goodKey_data hk).1
    show 1 ≤ k.data.length
    cases hd : k.data with
    | nil => exact absurd hd this
    | cons c t => simp
  unfold extendKey
  by_cases h0 : sub = ""
  · rw [if_pos h0, h0]
    simpa using hkpos
  · rw [if_neg h0]
    by_cases h1 : sub.data.head? = some '['
    · rw [if_pos h1]
      show 1 + sub.length ≤ (k.data ++ sub.data).length
      simp only [List.length_append]
      have h2 : sub.length = sub.data.length := rfl
      have h3 : k.length = k.data.length := rfl
      omega
    · rw [if_neg h1]
      show 1 + sub.length ≤ ((k.data ++ ("." : String).data) ++ sub.data).length
      simp only [List.length_append]
      have h2 : sub.length = sub.data.length := rfl
      have h3 : k.length = k.data.length := rfl
      have hdot : (("." : String).data).length = 1 := rfl
      omega

theorem mem_blocksJoin (kvs : List (String × Json)) (p : String × Json) (hp : p ∈ kvs)
    (e : String × Json) (he : e ∈ cflat p.2) :
    (extendKey p.1 e.1, e.2) ∈ blocksJoin kvs := by
  unfold blocksJoin
  apply List.mem_join.mpr
  refine ⟨(cflat p.2).map (fun e => (extendKey p.1 e.1, e.2)), ?_, ?_⟩
  · exact List.mem_map_of_mem _ hp
  · exact List.mem_map_of_mem _ he

mutual
theorem ndepth_le_maxKL : ∀ (v : Json), nice v = true → ndepth v ≤ maxKL (cflat v) + 2
  | .null, _ => by show 1 ≤ maxKL (cflat Json.null) + 2; omega
  | .bool b, _ => by show 1 ≤ maxKL (cflat (Json.bool b)) + 2; omega
  | .num q, _ => by show 1 ≤ maxKL (cflat (Json.num q)) + 2; omega
  | .str s, _ => by show 1 ≤ maxKL (cflat (Json.str s)) + 2; omega
  | .arr xs, _ => by show 1 ≤ maxKL (cflat (Json.arr xs)) + 2; omega
  | .obj kvs, h => by
      obtain ⟨hne, hnodup, hniceL⟩ := nice_obj_parts h
      have hjoin := cflat_obj_eq kvs h
      show 1 + ndepthList kvs ≤ maxKL (cflat (Json.obj kvs)) + 2
      have hbound : ∀ p ∈ kvs, ndepth p.2 ≤ maxKL (cflat (Json.obj kvs)) + 1 := by
        intro p hp
        have hchild := ndepth_le_maxKL_list kvs hniceL p hp
        have hnicep : nice p.2 = true := (niceList_mem hniceL p hp).2
        have hcnep : cflat p.2 ≠ [] := (cflat_spec p.2 hnicep).2.2
        obtain ⟨e, hemem, heq⟩ := maxKL_attained (cflat p.2) hcnep
        have hmem2 : (extendKey p.1 e.1, e.2) ∈ blocksJoin kvs :=
          mem_blocksJoin kvs p hp e hemem
        have hle1 : (extendKey p.1 e.1).length ≤ maxKL (blocksJoin kvs) :=
          maxKL_mem_le _ _ hmem2
        have hle2 : 1 + e.1.length ≤ (extendKey p.1 e.1).length :=
          extendKey_length_ge p.1 e.1 (niceList_mem hniceL p hp).1
        rw [hjoin]
        omega
      have := ndepthList_le kvs _ hbound
      omega

theorem ndepth_le_maxKL_list : ∀ (kvs : List (String × Json)), niceList kvs = true →
    ∀ p ∈ kvs, ndepth p.2 ≤ maxKL (cflat p.2) + 2
  | [], _, p, hp => absurd hp (List.not_mem_nil p)
  | (k, v) :: rest, h, p, hp => by
      obtain ⟨_, hnv, hnrest⟩ := niceList_cons h
      rcases List.mem_cons.mp hp with rfl | hmem
      · exact ndepth_le_maxKL v hnv
      · exact ndepth_le_maxKL_list rest hnrest p hmem
end

/-- The round-trip: reconstruction inverts flattening on nice values other
than the bare empty array. -/
theorem unflatten_flatten (v : Json) (hv : nice v = true) (hne : v ≠ Json.arr []) :
    unflatten (flatten_json v "") = v := by
  rw [flatten_root_eq_cflat v hne]
  unfold unflatten
  exact unflattenF_cflat (maxKL (cflat v) + 2) v hv (ndepth_le_maxKL v hv)

/-- C5 (counterexample): the round-trip fails as stated.  An empty object
value vanishes from the flat mapping (`{"a": {}}` flattens to the same
mapping as `{}`), so no reconstruction can recover it; a key containing a
`.` collides with genuine nesting; and the empty array at the ROOT produces
no marker, colliding with `{}`. -/
theorem claim_C5_counterexample :
    flatten_json (Json.obj [("a", Json.obj [])]) "" = []
    ∧ flatten_json (Json.obj []) "" = []
    ∧ Json.obj [("a", Json.obj [])] ≠ Json.obj []
    ∧ unflatten (flatten_json (Json.obj [("a", Json.obj [])]) "")
        ≠ Json.obj [("a", Json.obj [])]
    ∧ flatten_json (Json.obj [("a.b", Json.num 1)]) ""
        = flatten_json (Json.obj [("a", Json.obj [("b", Json.num 1)])]) ""
    ∧ Json.obj [("a.b", Json.num 1)] ≠ Json.obj [("a", Json.obj [("b", Json.num 1)])]
    ∧ flatten_json (Json.arr []) "" = flatten_json (Json.obj []) "" :=
  ⟨rfl, rfl, by decide, by decide, by decide, by decide, rfl⟩

/-- C5 (amended): the round-trip holds for JSON values built from objects
and arrays of scalars once the stated failure modes are excluded — every
object nonempty with distinct keys free of `.` and `[` (the `nice`
predicate) and the value itself not a bare empty array: reconstructing from
the flat mapping recovers the value exactly.  An empty array at any
non-root path `p` flattens to exactly the one marker entry `(p, [])`, and
on nice values the flat mapping has no duplicate keys (exactly one entry
per path). -/
theorem claim_C5_flatten_roundtrip (v : Json) :
    (nice v = true → v ≠ Json.arr [] → unflatten (flatten_json v "") = v)
    ∧ (∀ p : String, p ≠ "" → flatten_json (Json.arr []) p = [(p, Json.arr [])])
    ∧ (nice v = true → (dkeys (flatten_json v "")).Nodup) := by
  refine ⟨fun hv hne => unflatten_flatten v hv hne, ?_, ?_⟩
  · intro p hp
    rw [flatten_arr_def, if_pos ⟨hp, rfl⟩]
    rfl
  · intro hv
    by_cases hne : v = Json.arr []
    · subst hne
      simp [flatten_json, flattenArr, dkeys]
    · rw [flatten_root_eq_cflat v hne]
      exact (cflat_spec v hv).2.1

theorem claim_C5_witness :
    nice (Json.obj [("a", Json.arr []),
      ("b", Json.arr [Json.num 1, Json.str "x"]),
      ("c", Json.obj [("d", Json.null)])]) = true
    ∧ Json.obj [("a", Json.arr []),
        ("b", Json.arr [Json.num 1, Json.str "x"]),
        ("c", Json.obj [("d", Json.null)])] ≠ Json.arr []
    ∧ unflatten (flatten_json (Json.obj [("a", Json.arr []),
        ("b", Json.arr [Json.num 1, Json.str "x"]),
        ("c", Json.obj [("d", Json.null)])]) "")
      = Json.obj [("a", Json.arr []),
          ("b", Json.arr [Json.num 1, Json.str "x"]),
          ("c", Json.obj [("d", Json.null)])]
    ∧ ("a" : String) ≠ ""
    ∧ flatten_json (Json.arr []) "a" = [("a", Json.arr [])]
    ∧ (dkeys (flatten_json (Json.obj [("a", Json.arr []),
        ("b", Json.arr [Json.num 1, Json.str "x"]),
        ("c", Json.obj [("d", Json.null)])]) "")).Nodup :=
  ⟨by decide, by decide,
   (claim_C5_flatten_roundtrip _).1 (by decide) (by decide),
   by decide,
   (claim_C5_flatten_roundtrip (Json.obj [("a", Json.arr []),
      ("b", Json.arr [Json.num 1, Json.str "x"]),
      ("c", Json.obj [("d", Json.null)])])).2.1 "a" (by decide),
   (claim_C5_flatten_roundtrip _).2.2 (by decide)⟩
